import Mathlib

/-!
Verification development for the `ec` program-synthesis repository.

Part 1 embeds `dreamcoder/domains/quantum_algorithms/primitives.py`
(the quantum-circuit primitive library): the mutable circuit state
`[position, direction, size]`, the state/circuit operations, the
`_repeat` combinator, and the error routing of
`execute_quantum_algorithm`.

Part 2 models the grammar engine (`Grammar.enumeration`,
`Grammar.sketchEnumeration`, `Grammar.logLikelihood`, `Grammar.sample`,
`sampleSingleStep`, `findHoles`, `replace`).  That code is exercised by
`bin/test_grammar.py` but its implementation is not part of the source
excerpt, so it is modelled from the specification (each such definition
carries a `Modelled from the spec:` doc comment).
-/

namespace EC

/-! ## Part 1: quantum-circuit primitives (from src). -/

/-- The circuit state of `primitives.py`: the Python list
`[state[POS], state[DIR], state[N]]` built by `STATE_0`. -/
structure QCState where
  pos : Int
  dir : Int
  n : Int
deriving DecidableEq

/-- One recorded gate operation, as appended by `_hadamard` / `_cnot`
(`["hadamard", q]` and `["cnot", q1, q2]`). -/
inductive QOp where
  | hadamardOp : Int → QOp
  | cnotOp : Int → Int → QOp
deriving DecidableEq

/-- The value threaded through the circuit primitives: the Python pair
`[state, circuit]`. -/
abbrev QCircuit := QCState × List QOp

/-- The `Exception("Invalid selected qubit")` raised by the state
operations, and the other failures caught by
`execute_quantum_algorithm`'s bare `except`. -/
inductive QuantumError where
  | invalidQubit : QuantumError
deriving DecidableEq

/-- `STATE_0 = lambda n_qubits: [0, DIR_NEXT, n_qubits]` with
`DIR_NEXT = 1`. -/
def STATE_0 (nQubits : Int) : QCState := ⟨0, 1, nQubits⟩

/-- `_no_op(n) = [STATE_0(n), []]`. -/
def _no_op (n : Int) : QCircuit := (STATE_0 n, [])

/-- `_change_direction`: `state[DIR] *= -1`; never raises. -/
def _change_direction (oldCircuit : QCircuit) : QCircuit :=
  ({ oldCircuit.1 with dir := oldCircuit.1.dir * -1 }, oldCircuit.2)

/-- `_move_next`: raises when `state[POS] >= state[N]-1`, otherwise
increments the position. -/
def _move_next (oldCircuit : QCircuit) : Except QuantumError QCircuit :=
  if oldCircuit.1.n - 1 ≤ oldCircuit.1.pos then .error .invalidQubit
  else .ok ({ oldCircuit.1 with pos := oldCircuit.1.pos + 1 }, oldCircuit.2)

/-- `_move_prev`: raises when `state[POS] <= 0`, otherwise decrements
the position. -/
def _move_prev (oldCircuit : QCircuit) : Except QuantumError QCircuit :=
  if oldCircuit.1.pos ≤ 0 then .error .invalidQubit
  else .ok ({ oldCircuit.1 with pos := oldCircuit.1.pos - 1 }, oldCircuit.2)

/-- `_hadamard`: appends `["hadamard", state[POS]]`; never raises. -/
def _hadamard (oldCircuit : QCircuit) : QCircuit :=
  (oldCircuit.1, oldCircuit.2 ++ [QOp.hadamardOp oldCircuit.1.pos])

/-- `_cnot`: the second qubit is `state[POS] + state[DIR]`; raises when
it falls outside `0 .. state[N]-1`, otherwise appends
`["cnot", state[POS], second_qubit]`. -/
def _cnot (oldCircuit : QCircuit) : Except QuantumError QCircuit :=
  if oldCircuit.1.pos + oldCircuit.1.dir < 0 ∨ oldCircuit.1.n ≤ oldCircuit.1.pos + oldCircuit.1.dir
  then .error .invalidQubit
  else .ok (oldCircuit.1,
    oldCircuit.2 ++ [QOp.cnotOp oldCircuit.1.pos (oldCircuit.1.pos + oldCircuit.1.dir)])

/-- The five state/circuit operations of the primitive library that act
on a `QCircuit` value. -/
inductive CircuitOp where
  | moveNext | movePrev | changeDirection | hadamardGate | cnotGate
deriving DecidableEq

/-- Apply one operation, raising exactly where the Python code does. -/
def applyCircuitOp (c : QCircuit) : CircuitOp → Except QuantumError QCircuit
  | .moveNext => _move_next c
  | .movePrev => _move_prev c
  | .changeDirection => .ok (_change_direction c)
  | .hadamardGate => .ok (_hadamard c)
  | .cnotGate => _cnot c

/-- Run a sequence of operations; a raise aborts the run, as an
uncaught Python exception would. -/
def runCircuitOps (c : QCircuit) : List CircuitOp → Except QuantumError QCircuit
  | [] => .ok c
  | op :: ops => match applyCircuitOp c op with
    | .ok c2 => runCircuitOps c2 ops
    | .error e => .error e

/-- The state invariant claimed for circuits built from `_no_op n`:
position within `0 .. n-1` and direction in `{-1, +1}`. -/
def stateInvariant (n : Int) (c : QCircuit) : Prop :=
  c.1.n = n ∧ 0 ≤ c.1.pos ∧ c.1.pos ≤ n - 1 ∧ (c.1.dir = 1 ∨ c.1.dir = -1)

instance (n : Int) (c : QCircuit) : Decidable (stateInvariant n c) := by
  unfold stateInvariant; infer_instance

/-- `_repeat_help(n_times, body, new_body)`: returns `new_body` at
`n_times == 1`, otherwise recurses with the composed body.  The `0`
case is unreachable from `_repeat`, which rejects `n_times <= 0`. -/
def _repeat_help {α : Type u} (nTimes : Nat) (body newBody : α → α) : α → α :=
  match nTimes with
  | 0 => newBody
  | 1 => newBody
  | k + 2 => _repeat_help (k + 1) body (fun b => newBody (body b))

/-- `_repeat(n_times, body)`: raises `Exception("Invalid repetition
number.")` when `n_times <= 0` (modelled as `none`), otherwise the
composed function from `_repeat_help`. -/
def _repeat {α : Type u} (nTimes : Int) (body : α → α) : Option (α → α) :=
  if nTimes ≤ 0 then none
  else some (_repeat_help nTimes.toNat body body)

/-! ### The error boundary of `execute_quantum_algorithm`. -/

/-- The possible outcomes of `runWithTimeout(lambda: p.evaluate([])(n_qubits),
timeout)`.  `p.evaluate` itself belongs to the external program core
(spec section 6: execution of produced programs is the external
evaluator's concern), so the outcome is taken as a parameter: a value,
the distinct `RunWithTimeout` signal, or any other host exception. -/
inductive EvalOutcome (α : Type) where
  | value : α → EvalOutcome α
  | runWithTimeoutSignal : EvalOutcome α
  | hostException : EvalOutcome α

/-- The validity check implicit in the numpy tensor code of
`full_circuit_to_mat`: contracting a gate tensor against qubit index
`q` fails (raises) unless `0 <= q < n`.  The numeric tensor value
itself is opaque here; the model keeps the qubit count and the
validated gate list. -/
def opIndicesValid (n : Int) : QOp → Bool
  | .hadamardOp q => decide (0 ≤ q) && decide (q < n)
  | .cnotOp q1 q2 => decide (0 ≤ q1) && decide (q1 < n) && decide (0 ≤ q2) && decide (q2 < n)

/-- `full_circuit_to_mat(full_circuit)`: folds the gate list over
`eye(n_qubit)`.  A negative qubit count or an out-of-range gate index
makes the numpy code raise; the resulting unitary is kept abstractly
as the validated `(n_qubit, op_list)` pair. -/
def full_circuit_to_mat (nQubit : Int) (opList : List QOp) :
    Except QuantumError (Int × List QOp) :=
  if nQubit < 0 then .error .invalidQubit
  else if opList.all (opIndicesValid nQubit) then .ok (nQubit, opList)
  else .error .invalidQubit

/-- `state_circuit_to_mat(circuit) = full_circuit_to_mat([circuit[0][-1],
circuit[1]])`: the qubit count is the last entry of the state list. -/
def state_circuit_to_mat (circuit : QCircuit) : Except QuantumError (Int × List QOp) :=
  full_circuit_to_mat circuit.1.n circuit.2

/-- `execute_quantum_algorithm(p, n_qubits, timeout)`: runs the
evaluation under `runWithTimeout` inside a `try`, converts the circuit
with `state_circuit_to_mat`, and returns `None` both on the
`RunWithTimeout` signal and on any other exception (the bare
`except`). -/
def execute_quantum_algorithm (evalResult : EvalOutcome QCircuit) :
    Option (Int × List QOp) :=
  match evalResult with
  | .value circuit =>
    match state_circuit_to_mat circuit with
    | .ok m => some m
    | .error _ => none
  | .runWithTimeoutSignal => none
  | .hostException => none

/-! ### Theorems for claims C8, C9, C10. -/

/-- Claim C8: `execute_quantum_algorithm` catches the distinct timeout
signal (`RunWithTimeout`) and every other exception raised while
evaluating the program or converting its circuit, returning `None` in
all of those cases; a result is produced exactly when evaluation
returned a circuit whose conversion succeeds, so no exception ever
propagates to the caller. -/
theorem execute_quantum_algorithm_catches_all :
    execute_quantum_algorithm (EvalOutcome.runWithTimeoutSignal) = none ∧
    execute_quantum_algorithm (EvalOutcome.hostException) = none ∧
    (∀ c e, state_circuit_to_mat c = .error e →
      execute_quantum_algorithm (EvalOutcome.value c) = none) ∧
    (∀ c m, state_circuit_to_mat c = .ok m →
      execute_quantum_algorithm (EvalOutcome.value c) = some m) := by
  refine ⟨rfl, rfl, ?_, ?_⟩
  · intro c e h
    simp [execute_quantum_algorithm, h]
  · intro c m h
    simp [execute_quantum_algorithm, h]

/-- Witness for C8: concrete timeout, a concrete failing circuit
(hadamard on qubit 5 of a 1-qubit state), and a concrete succeeding
one. -/
theorem execute_quantum_algorithm_catches_all_witness :
    execute_quantum_algorithm (EvalOutcome.runWithTimeoutSignal) = none ∧
    execute_quantum_algorithm (EvalOutcome.value (⟨0, 1, 1⟩, [QOp.hadamardOp 5])) = none ∧
    execute_quantum_algorithm (EvalOutcome.value (⟨0, 1, 1⟩, [QOp.hadamardOp 0])) =
      some (1, [QOp.hadamardOp 0]) := by
  refine ⟨execute_quantum_algorithm_catches_all.1, ?_, ?_⟩
  · exact execute_quantum_algorithm_catches_all.2.2.1 (⟨0, 1, 1⟩, [QOp.hadamardOp 5])
      QuantumError.invalidQubit rfl
  · exact execute_quantum_algorithm_catches_all.2.2.2 (⟨0, 1, 1⟩, [QOp.hadamardOp 0])
      (1, [QOp.hadamardOp 0]) rfl

/-- `_repeat_help (k+1) body new` composes `new` after `k` iterations
of `body`. -/
theorem _repeat_help_eq {α : Type u} (k : Nat) (body newBody : α → α) (x : α) :
    _repeat_help (k + 1) body newBody x = newBody (body^[k] x) := by
  induction k generalizing newBody with
  | zero =>
    rw [Function.iterate_zero_apply body x]
    rfl
  | succ k ih =>
    calc _repeat_help (k + 2) body newBody x
        = _repeat_help (k + 1) body (fun b => newBody (body b)) x := by
          simp only [_repeat_help]
      _ = newBody (body (body^[k] x)) := ih (fun b => newBody (body b))
      _ = newBody (body^[k + 1] x) := by
          rw [Function.iterate_succ_apply' body k x]

/-- Claim C9: `_repeat(n, body)` raises when `n <= 0`, and for
`n >= 1` it returns the `n`-fold composition of `body`: applying the
result to `x` performs exactly `n` successive applications of
`body`. -/
theorem _repeat_spec {α : Type u} (n : Int) (body : α → α) :
    (n ≤ 0 → _repeat n body = none) ∧
    (1 ≤ n → ∃ f, _repeat n body = some f ∧ ∀ x, f x = body^[n.toNat] x) := by
  constructor
  · intro h
    simp [_repeat, h]
  · intro h
    refine ⟨_repeat_help n.toNat body body, ?_, ?_⟩
    · simp [_repeat]
      omega
    · intro x
      obtain ⟨k, hk⟩ : ∃ k, n.toNat = k + 1 := by
        refine ⟨n.toNat - 1, ?_⟩
        omega
      rw [hk, _repeat_help_eq]
      rw [Function.iterate_succ_apply']

/-- One successful operation preserves the circuit state invariant
(the qubit count is never written, the position moves only under the
bounds checks of `_move_next`/`_move_prev`, and the direction is only
ever negated). -/
theorem applyCircuitOp_preserves_invariant (n : Int) (c c2 : QCircuit) (op : CircuitOp)
    (hInv : stateInvariant n c) (hOk : applyCircuitOp c op = .ok c2) :
    stateInvariant n c2 := by
  obtain ⟨hn, hpos0, hpos1, hdir⟩ := hInv
  cases op <;>
    simp only [applyCircuitOp, _move_next, _move_prev, _change_direction,
      _hadamard, _cnot] at hOk
  case moveNext =>
    split at hOk
    · exact absurd hOk (by simp)
    · obtain rfl : ({ c.1 with pos := c.1.pos + 1 }, c.2) = c2 := by
        simpa using hOk
      refine ⟨hn, by simp; omega, by simp; omega, by simpa using hdir⟩
  case movePrev =>
    split at hOk
    · exact absurd hOk (by simp)
    · obtain rfl : ({ c.1 with pos := c.1.pos - 1 }, c.2) = c2 := by
        simpa using hOk
      refine ⟨hn, by simp; omega, by simp; omega, by simpa using hdir⟩
  case changeDirection =>
    obtain rfl : ({ c.1 with dir := c.1.dir * -1 }, c.2) = c2 := by
      simpa using hOk
    refine ⟨hn, by simpa using hpos0, by simpa using hpos1, ?_⟩
    simp only [QCState.dir]
    omega
  case hadamardGate =>
    obtain rfl : (c.1, c.2 ++ [QOp.hadamardOp c.1.pos]) = c2 := by
      simpa using hOk
    exact ⟨hn, hpos0, hpos1, hdir⟩
  case cnotGate =>
    split at hOk
    · exact absurd hOk (by simp)
    · obtain rfl : (c.1, c.2 ++ [QOp.cnotOp c.1.pos (c.1.pos + c.1.dir)]) = c2 := by
        simpa using hOk
      exact ⟨hn, hpos0, hpos1, hdir⟩

/-- Invariant preservation along a whole run. -/
theorem runCircuitOps_preserves_invariant (n : Int) (ops : List CircuitOp) :
    ∀ c c2, stateInvariant n c → runCircuitOps c ops = .ok c2 → stateInvariant n c2 := by
  induction ops with
  | nil =>
    intro c c2 hInv hRun
    obtain rfl : c = c2 := by simpa [runCircuitOps] using hRun
    exact hInv
  | cons op ops ih =>
    intro c c2 hInv hRun
    simp only [runCircuitOps] at hRun
    split at hRun
    case h_1 cMid hMid => exact ih cMid c2 (applyCircuitOp_preserves_invariant n c cMid op hInv hMid) hRun
    case h_2 => exact absurd hRun (by simp)

/-- Claim C10 (amended to qubit counts `n ≥ 1`): starting from
`_no_op n`, every successful sequence of state operations keeps the
position within `0 .. n-1` and the direction in `{-1, +1}`; moreover
`_move_next` raises exactly when `pos >= n-1`, `_move_prev` exactly
when `pos <= 0`, and `_cnot` exactly when `pos + dir` falls outside
`0 .. n-1`. -/
theorem circuit_state_invariant (n : Int) (hn : 1 ≤ n) :
    (∀ ops c, runCircuitOps (_no_op n) ops = .ok c → stateInvariant n c) ∧
    (∀ c : QCircuit, (∃ e, _move_next c = .error e) ↔ c.1.n - 1 ≤ c.1.pos) ∧
    (∀ c : QCircuit, (∃ e, _move_prev c = .error e) ↔ c.1.pos ≤ 0) ∧
    (∀ c : QCircuit,
      (∃ e, _cnot c = .error e) ↔ (c.1.pos + c.1.dir < 0 ∨ c.1.n ≤ c.1.pos + c.1.dir)) := by
  refine ⟨?_, ?_, ?_, ?_⟩
  · intro ops c hRun
    refine runCircuitOps_preserves_invariant n ops (_no_op n) c ?_ hRun
    exact ⟨rfl, le_refl 0, by simp [_no_op, STATE_0]; omega, Or.inl rfl⟩
  · intro c
    constructor
    · rintro ⟨e, he⟩
      by_contra hlt
      simp [_move_next, hlt] at he
    · intro h
      exact ⟨.invalidQubit, by simp [_move_next, h]⟩
  · intro c
    constructor
    · rintro ⟨e, he⟩
      by_contra hlt
      simp [_move_prev, hlt] at he
    · intro h
      exact ⟨.invalidQubit, by simp [_move_prev, h]⟩
  · intro c
    constructor
    · rintro ⟨e, he⟩
      by_contra hlt
      simp [_cnot, hlt] at he
    · intro h
      exact ⟨.invalidQubit, by simp [_cnot, h]⟩

/-- Counterexample for C10 as literally stated (for every `n`): with
`n = 0`, `_change_direction` on `_no_op 0` neither raises nor returns
a state whose position lies within `0 .. n-1` (that range is empty,
yet the position is `0`). -/
theorem circuit_state_invariant_cex :
    runCircuitOps (_no_op 0) [CircuitOp.changeDirection] =
      .ok ((⟨0, -1, 0⟩ : QCState), ([] : List QOp)) ∧
    ¬ stateInvariant 0 ((⟨0, -1, 0⟩ : QCState), ([] : List QOp)) := by
  constructor
  · rfl
  · decide

/-- Witness for C10: a concrete run on a 2-qubit circuit. -/
theorem circuit_state_invariant_witness :
    stateInvariant 2 ((⟨1, -1, 2⟩ : QCState), [QOp.cnotOp 1 0]) :=
  (circuit_state_invariant 2 (by decide)).1
    [CircuitOp.moveNext, CircuitOp.changeDirection, CircuitOp.cnotGate]
    ((⟨1, -1, 2⟩ : QCState), [QOp.cnotOp 1 0]) rfl

/-- Witness for C9: `_repeat 0` fails, and `_repeat 3 Nat.succ`
applied to `4` gives `7`. -/
theorem _repeat_spec_witness :
    _repeat (0 : Int) Nat.succ = none ∧
    ∃ f, _repeat (3 : Int) Nat.succ = some f ∧ f 4 = 7 := by
  constructor
  · exact (_repeat_spec (0 : Int) Nat.succ).1 (by decide)
  · obtain ⟨f, hf, hfx⟩ := (_repeat_spec (3 : Int) Nat.succ).2 (by decide)
    exact ⟨f, hf, by rw [hfx]; decide⟩

/-! ## Part 2: the program-synthesis core, modelled from the spec.

The grammar engine itself (dreamcoder's `grammar.py` / `zipper.py` /
`type.py` / `program.py`) is not part of the source excerpt — only its
caller `bin/test_grammar.py` is — so the following definitions are
modelled from the specification's data model and component designs. -/

/-- Modelled from the spec: the missing `type.py` type representation.
A type is a type variable (an integer index meaningful relative to a
context) or a constructed type; the binary arrow constructor is
distinguished. -/
inductive Ty where
  | tvar : Nat → Ty
  | arrow : Ty → Ty → Ty
  | tcon : String → List Ty → Ty

mutual

/-- Boolean structural equality of types. -/
def Ty.beq : Ty → Ty → Bool
  | .tvar a, .tvar b => a == b
  | .arrow a b, .arrow c d => Ty.beq a c && Ty.beq b d
  | .tcon nm as, .tcon nm2 bs => nm == nm2 && Ty.beqList as bs
  | _, _ => false
termination_by a _ => sizeOf a

/-- Boolean structural equality of type lists. -/
def Ty.beqList : List Ty → List Ty → Bool
  | [], [] => true
  | a :: as, b :: bs => Ty.beq a b && Ty.beqList as bs
  | _, _ => false
termination_by as _ => sizeOf as

end

mutual

theorem Ty.beq_iff : ∀ (a b : Ty), Ty.beq a b = true ↔ a = b
  | .tvar _, .tvar _ => by simp [Ty.beq]
  | .tvar _, .arrow _ _ => by simp [Ty.beq]
  | .tvar _, .tcon _ _ => by simp [Ty.beq]
  | .arrow _ _, .tvar _ => by simp [Ty.beq]
  | .arrow a b, .arrow c d => by
    simp [Ty.beq, Ty.beq_iff a c, Ty.beq_iff b d]
  | .arrow _ _, .tcon _ _ => by simp [Ty.beq]
  | .tcon _ _, .tvar _ => by simp [Ty.beq]
  | .tcon _ _, .arrow _ _ => by simp [Ty.beq]
  | .tcon nm as, .tcon nm2 bs => by
    simp [Ty.beq, Ty.beqList_iff as bs]
termination_by a _ => sizeOf a

theorem Ty.beqList_iff : ∀ (as bs : List Ty), Ty.beqList as bs = true ↔ as = bs
  | [], [] => by simp [Ty.beqList]
  | [], _ :: _ => by simp [Ty.beqList]
  | _ :: _, [] => by simp [Ty.beqList]
  | a :: as, b :: bs => by
    simp [Ty.beqList, Ty.beq_iff a b, Ty.beqList_iff as bs]
termination_by as _ => sizeOf as

end

instance : DecidableEq Ty := fun a b => decidable_of_iff _ (Ty.beq_iff a b)

/-- The base type `tint` used by the arithmetic primitives. -/
def tint : Ty := Ty.tcon ("int") []

/-- The base type `tbool`. -/
def tbool : Ty := Ty.tcon ("bool") []

/-- The parametric constructor `list(T)`. -/
def tlist (t : Ty) : Ty := Ty.tcon ("list") [t]

/-- Modelled from the spec: the missing `Context` of `type.py` — an
immutable binding environment mapping type-variable indices to types,
plus a counter for the next fresh variable. -/
structure Context where
  nextVar : Nat
  subst : List (Nat × Ty)
deriving DecidableEq

/-- `Context.EMPTY`: no bindings, next fresh variable `0`. -/
def Context.EMPTY : Context := ⟨0, []⟩

mutual

/-- Apply a parallel substitution to a type.  The substitution is kept
idempotent (bound right-hand sides never mention bound variables), so
one pass fully resolves. -/
def applySub (s : List (Nat × Ty)) : Ty → Ty
  | .tvar v =>
    match s.lookup v with
    | some t => t
    | none => .tvar v
  | .arrow a b => .arrow (applySub s a) (applySub s b)
  | .tcon nm args => .tcon nm (applySubList s args)
termination_by t => sizeOf t

/-- `applySub` mapped over a list of types. -/
def applySubList (s : List (Nat × Ty)) : List Ty → List Ty
  | [] => []
  | t :: ts => applySub s t :: applySubList s ts
termination_by ts => sizeOf ts

end

/-- `apply(ctx, t)`: resolve a type to its most-substituted form. -/
def Context.applyCtx (ctx : Context) (t : Ty) : Ty := applySub ctx.subst t

mutual

/-- The occurs check of unification: does `tvar v` occur in `t`? -/
def occursIn (v : Nat) : Ty → Bool
  | .tvar w => v == w
  | .arrow a b => occursIn v a || occursIn v b
  | .tcon _ args => occursInList v args
termination_by t => sizeOf t

/-- `occursIn` over a list of types. -/
def occursInList (v : Nat) : List Ty → Bool
  | [] => false
  | t :: ts => occursIn v t || occursInList v ts
termination_by ts => sizeOf ts

end

/-- Bind `tvar v := t` in a context, substituting into the existing
bindings so the substitution stays idempotent. -/
def Context.bindVar (ctx : Context) (v : Nat) (t : Ty) : Context :=
  ⟨ctx.nextVar, (v, t) :: ctx.subst.map (fun p => (p.1, applySub [(v, t)] p.2))⟩

mutual

/-- The type variables of a type, in occurrence order (with repeats). -/
def collectVars : Ty → List Nat
  | .tvar v => [v]
  | .arrow a b => collectVars a ++ collectVars b
  | .tcon _ args => collectVarsList args
termination_by t => sizeOf t

/-- `collectVars` over a list of types. -/
def collectVarsList : List Ty → List Nat
  | [] => []
  | t :: ts => collectVars t ++ collectVarsList ts
termination_by ts => sizeOf ts

end

/-- Modelled from the spec: the missing `instantiate(ctx, typeScheme)`
— replace every variable of a scheme with a fresh variable sharing no
binding with existing ones. -/
def Context.instantiate (ctx : Context) (t : Ty) : Context × Ty :=
  let vs := (collectVars t).dedup
  let ren := vs.enum.map (fun p => (p.2, Ty.tvar (ctx.nextVar + p.1)))
  (⟨ctx.nextVar + vs.length, ctx.subst⟩, applySub ren t)

mutual

/-- The number of nodes of a type, used to pick unification fuel. -/
def tyWeight : Ty → Nat
  | .tvar _ => 1
  | .arrow a b => 1 + tyWeight a + tyWeight b
  | .tcon _ args => 1 + tyWeightList args
termination_by t => sizeOf t

/-- `tyWeight` summed over a list of types. -/
def tyWeightList : List Ty → Nat
  | [] => 0
  | t :: ts => tyWeight t + tyWeightList ts
termination_by ts => sizeOf ts

end

mutual

/-- Modelled from the spec: the missing `unify(ctx, t1, t2)` — deep
structural walk binding free variables greedily left-to-right with an
occurs check; failure (`UnificationError`, here `none`) on constructor
mismatch, arity mismatch, or occurs violation.  The fuel argument
bounds the walk; exhaustion is reported as failure, which the search
treats like any unification failure. -/
def unifyFuel : Nat → Context → Ty → Ty → Option Context
  | 0, _, _, _ => none
  | fuel + 1, ctx, t0, u0 =>
    match ctx.applyCtx t0, ctx.applyCtx u0 with
    | .tvar a, .tvar b =>
      if a = b then some ctx else some (ctx.bindVar a (.tvar b))
    | .tvar a, u => if occursIn a u then none else some (ctx.bindVar a u)
    | t, .tvar a => if occursIn a t then none else some (ctx.bindVar a t)
    | .arrow a b, .arrow c d => do
      let ctx1 ← unifyFuel fuel ctx a c
      unifyFuel fuel ctx1 b d
    | .tcon nm as, .tcon nm2 bs =>
      if nm = nm2 then unifyListFuel fuel ctx as bs else none
    | _, _ => none
termination_by fuel _ _ _ => (fuel, 0, 0)

/-- Pairwise unification of argument lists, threading the context. -/
def unifyListFuel : Nat → Context → List Ty → List Ty → Option Context
  | _, ctx, [], [] => some ctx
  | fuel, ctx, a :: as, b :: bs => do
    let ctx1 ← unifyFuel fuel ctx a b
    unifyListFuel fuel ctx1 as bs
  | _, _, _, _ => none
termination_by fuel _ as _ => (fuel, 1, as.length)

end

/-- `unify(ctx, t1, t2)` with fuel ample for the non-pathological
types that arise here. -/
def Context.unify (ctx : Context) (t u : Ty) : Option Context :=
  unifyFuel ((tyWeight t + tyWeight u + ctx.subst.length + 1) * 2) ctx t u

/-! ### Program representation and the zipper / hole navigator. -/

/-- Modelled from the spec: the missing `program.py` tree — de Bruijn
variable references, primitive leaves (looked up by name in the
grammar; the opaque host value is never consulted by the core, and an
invented leaf behaves exactly like a primitive here), application,
abstraction, and typed environment-tagged holes. -/
inductive Program where
  | index : Nat → Program
  | prim : String → Program
  | abs : Program → Program
  | app : Program → Program → Program
  | hole : Ty → List Ty → Program
deriving DecidableEq, Inhabited

/-- `p.hasHoles`: does the program contain a `Hole` node? -/
def Program.hasHoles : Program → Bool
  | .index _ => false
  | .prim _ => false
  | .abs b => b.hasHoles
  | .app f x => f.hasHoles || x.hasHoles
  | .hole _ _ => true

/-- `baseHoleOfType(request)`: the trivial sketch, one hole of the
requested type under the empty environment. -/
def baseHoleOfType (t : Ty) : Program := Program.hole t []

/-- Build the application spine `f x1 ... xn`. -/
def mkApps (f : Program) : List Program → Program
  | [] => f
  | a :: as => mkApps (Program.app f a) as

/-- Modelled from the spec: one step of a zipper path — into the
function or argument of an application, or into the body of an
abstraction. -/
inductive Move where
  | fn | arg | body
deriving DecidableEq

/-- Modelled from the spec: the missing `zipper.py` cursor — the path
from the program root to one hole, together with the type expected
there and the variable-type environment in scope. -/
structure Zipper where
  path : List Move
  tp : Ty
  env : List Ty
deriving DecidableEq

/-- The `PathError` of the spec: a zipper path that no longer resolves
in the given program. -/
inductive PathError where
  | stalePath : PathError
deriving DecidableEq

/-- The subprogram reached by walking a path, when the path resolves. -/
def subtermAt (p : Program) (path : List Move) : Option Program :=
  match path, p with
  | [], _ => some p
  | .fn :: rest, .app f _ => subtermAt f rest
  | .arg :: rest, .app _ x => subtermAt x rest
  | .body :: rest, .abs b => subtermAt b rest
  | _ :: _, _ => none

/-- Modelled from the spec: the missing `replace(program, zipper,
newSubprogram)` — walk the program along the path, substitute the new
subprogram at the terminus, fail with `PathError` when the path is
stale/out of range; persistent-tree reconstruction, no mutation. -/
def replace (p : Program) (path : List Move) (newSub : Program) :
    Except PathError Program :=
  match path, p with
  | [], _ => .ok newSub
  | .fn :: rest, .app f x =>
    match replace f rest newSub with
    | .ok f2 => .ok (.app f2 x)
    | .error e => .error e
  | .arg :: rest, .app f x =>
    match replace x rest newSub with
    | .ok x2 => .ok (.app f x2)
    | .error e => .error e
  | .body :: rest, .abs b =>
    match replace b rest newSub with
    | .ok b2 => .ok (.abs b2)
    | .error e => .error e
  | _ :: _, _ => .error .stalePath

/-- Modelled from the spec: the missing `findHoles(program,
requestType)` — the canonical left-to-right outside-in traversal
yielding one zipper per hole.  Each hole records the type and
environment captured at its creation, which the traversal reads back
as it descends. -/
def findHoles (p : Program) (request : Ty) : List Zipper :=
  match p with
  | .hole t e => [⟨[], t, e⟩]
  | .abs b =>
    (findHoles b request).map (fun z => ⟨Move.body :: z.path, z.tp, z.env⟩)
  | .app f x =>
    (findHoles f request).map (fun z => ⟨Move.fn :: z.path, z.tp, z.env⟩) ++
      (findHoles x request).map (fun z => ⟨Move.arg :: z.path, z.tp, z.env⟩)
  | _ => []

/-- Claim C6: `replace` returns a new whole program with the
replacement at the path terminus whenever the path resolves in the
program, and fails with `PathError` exactly when it does not; the
argument program is an immutable value, never modified. -/
theorem replace_spec (p : Program) (path : List Move) (newSub : Program) :
    ((subtermAt p path).isSome →
      ∃ p2, replace p path newSub = .ok p2 ∧ subtermAt p2 path = some newSub) ∧
    (subtermAt p path = none → replace p path newSub = .error .stalePath) := by
  induction path generalizing p with
  | nil =>
    refine ⟨fun _ => ⟨newSub, by simp [replace], by simp [subtermAt]⟩, fun h => ?_⟩
    simp [subtermAt] at h
  | cons mv rest ih =>
    constructor
    · intro hSome
      match p, mv with
      | .app f x, .fn =>
        obtain ⟨f2, hf2, hAt⟩ := (ih f).1 (by simpa [subtermAt] using hSome)
        exact ⟨.app f2 x, by simp [replace, hf2], by simpa [subtermAt] using hAt⟩
      | .app f x, .arg =>
        obtain ⟨x2, hx2, hAt⟩ := (ih x).1 (by simpa [subtermAt] using hSome)
        exact ⟨.app f x2, by simp [replace, hx2], by simpa [subtermAt] using hAt⟩
      | .abs b, .body =>
        obtain ⟨b2, hb2, hAt⟩ := (ih b).1 (by simpa [subtermAt] using hSome)
        exact ⟨.abs b2, by simp [replace, hb2], by simpa [subtermAt] using hAt⟩
      | .index i, _ => simp [subtermAt] at hSome
      | .prim nm, _ => simp [subtermAt] at hSome
      | .hole t e, _ => simp [subtermAt] at hSome
      | .abs b, .fn => simp [subtermAt] at hSome
      | .abs b, .arg => simp [subtermAt] at hSome
      | .app f x, .body => simp [subtermAt] at hSome
    · intro hNone
      match p, mv with
      | .app f x, .fn =>
        have := (ih f).2 (by simpa [subtermAt] using hNone)
        simp [replace, this]
      | .app f x, .arg =>
        have := (ih x).2 (by simpa [subtermAt] using hNone)
        simp [replace, this]
      | .abs b, .body =>
        have := (ih b).2 (by simpa [subtermAt] using hNone)
        simp [replace, this]
      | .index i, _ => simp [replace]
      | .prim nm, _ => simp [replace]
      | .hole t e, _ => simp [replace]
      | .abs b, .fn => simp [replace]
      | .abs b, .arg => simp [replace]
      | .app f x, .body => simp [replace]

/-- Witness for C6: a resolving path inside an application of an
abstraction, and a stale path on a bare primitive. -/
theorem replace_spec_witness :
    (∃ p2,
      replace (.app (.abs (baseHoleOfType tint)) (.prim ("+")))
        [Move.fn, Move.body] (.prim ("1")) = .ok p2 ∧
      subtermAt p2 [Move.fn, Move.body] = some (.prim ("1"))) ∧
    replace (.prim ("+")) [Move.fn] (.prim ("1")) = .error .stalePath := by
  constructor
  · exact (replace_spec (.app (.abs (baseHoleOfType tint)) (.prim ("+")))
      [Move.fn, Move.body] (.prim ("1"))).1 (by decide)
  · exact (replace_spec (.prim ("+")) [Move.fn] (.prim ("1"))).2 (by decide)

/-! ### The weighted grammar and candidate construction. -/

instance : Inhabited Context := ⟨Context.EMPTY⟩

/-- Modelled from the spec: the missing `Grammar` — one log-weight per
production `(log-weight, type, leaf program)` plus the single shared
log-weight for referencing an environment variable.  The weights used
by search and likelihood are taken as already renormalized per request
(the spec's log-softmax policy); log-softmax itself is transcendental
and is not recomputed here. -/
structure Grammar where
  logVariable : ℚ
  productions : List (ℚ × Ty × Program)

/-- `Grammar.uniform(primitives)`: every production carries the same
weight. -/
def Grammar.uniform (prims : List (String × Ty)) : Grammar :=
  ⟨0, prims.map (fun p => (0, p.2, Program.prim p.1))⟩

/-- Split a (possibly curried function) type into its argument types
and final return type. -/
def peelArrows : Ty → List Ty × Ty
  | .arrow a b =>
    let pa := peelArrows b
    (a :: pa.1, pa.2)
  | t => ([], t)

/-- One way of expanding a non-arrow request: a leaf (production or
environment variable) whose instantiated return type unifies with the
request, its log-weight, the argument types still to fill, and the
context extended by the unifier. -/
structure Candidate where
  w : ℚ
  leaf : Program
  argTys : List Ty
  ctx : Context
deriving DecidableEq, Inhabited

/-- Modelled from the spec: candidate construction shared by the
enumerator and the sampler — instantiate each production's type
scheme, unify its return type with the request, and add one candidate
per type-compatible environment variable at the shared
`logVariable` weight. -/
def Grammar.buildCandidates (g : Grammar) (ctx : Context) (env : List Ty)
    (request : Ty) : List Candidate :=
  (g.productions.filterMap (fun prod =>
    let it := ctx.instantiate prod.2.1
    let pa := peelArrows it.2
    (it.1.unify pa.2 request).map (fun ctx2 => ⟨prod.1, prod.2.2, pa.1, ctx2⟩))) ++
  (env.enum.filterMap (fun p =>
    let pa := peelArrows p.2
    (ctx.unify pa.2 request).map (fun ctx2 => ⟨g.logVariable, Program.index p.1, pa.1, ctx2⟩)))

/-- The spec's standing assumption on grammars driving bounded search:
every production (and the variable reference) has strictly negative
log-weight. -/
def Grammar.negWeights (g : Grammar) : Prop :=
  g.logVariable < 0 ∧ ∀ p ∈ g.productions, p.1 < 0

instance (g : Grammar) : Decidable g.negWeights := by
  unfold Grammar.negWeights; infer_instance

/-- Every candidate's weight is a production weight or the variable
weight, hence negative under `negWeights`. -/
theorem buildCandidates_w_neg (g : Grammar) (ctx : Context) (env : List Ty)
    (request : Ty) (hg : g.negWeights) :
    ∀ c ∈ g.buildCandidates ctx env request, c.w < 0 := by
  intro c hc
  rcases List.mem_append.1 hc with h | h
  · obtain ⟨prod, hmem, heq⟩ := List.mem_filterMap.1 h
    obtain ⟨ctx2, _, heq2⟩ := Option.map_eq_some'.1 heq
    cases heq2
    exact hg.2 prod hmem
  · obtain ⟨p, hmem, heq⟩ := List.mem_filterMap.1 h
    obtain ⟨ctx2, _, heq2⟩ := Option.map_eq_some'.1 heq
    cases heq2
    exact hg.1

/-! ### The bounded enumerator. -/

mutual

/-- Modelled from the spec: the missing `Grammar.enumeration` search
core.  An arrow request always introduces one abstraction at zero
cost; a non-arrow request either terminates early as a `Hole` at zero
cost (when `enumerateHoles` and budget remains) or expands one
type-compatible candidate, pruning it when its weight would already
exhaust the remaining log-probability budget, then enumerates the
candidate's arguments left-to-right under the shrunk budget.  The fuel
argument caps the expansion depth; `Grammar.enumFuel` below computes a
cap past which the result no longer changes. -/
def enumFull (g : Grammar) (fuel : Nat) (ctx : Context) (env : List Ty)
    (request : Ty) (budget : ℚ) (enumerateHoles : Bool) :
    List (ℚ × Context × Program) :=
  match fuel, request with
  | fuel, .arrow a r =>
    (enumFull g fuel ctx (a :: env) r budget enumerateHoles).map
      (fun x => (x.1, x.2.1, Program.abs x.2.2))
  | 0, _ => []
  | fuel + 1, req =>
    (if enumerateHoles && decide (0 < budget)
     then [((0 : ℚ), ctx, Program.hole req env)] else []) ++
    (g.buildCandidates ctx env req).flatMap (fun c =>
      if 0 < budget + c.w then
        (enumArgs g fuel c.ctx env c.argTys (budget + c.w) enumerateHoles).map
          (fun r2 => (c.w + r2.1, r2.2.1, mkApps c.leaf r2.2.2))
      else [])
termination_by (fuel, 1, sizeOf request)

/-- Enumerate fillings of a list of argument types left-to-right,
threading the context and decrementing the budget by each piece's
cost. -/
def enumArgs (g : Grammar) (fuel : Nat) (ctx : Context) (env : List Ty)
    (argTys : List Ty) (budget : ℚ) (enumerateHoles : Bool) :
    List (ℚ × Context × List Program) :=
  match argTys with
  | [] => [((0 : ℚ), ctx, [])]
  | t :: ts =>
    (enumFull g fuel ctx env (ctx.applyCtx t) budget enumerateHoles).flatMap (fun a =>
      (enumArgs g fuel a.2.1 env ts (budget + a.1) enumerateHoles).map
        (fun r2 => (a.1 + r2.1, r2.2.1, a.2.2 :: r2.2.2)))
termination_by (fuel, 2, argTys.length)

end

/-- The largest (least negative) weight of the grammar. -/
def Grammar.maxWeight (g : Grammar) : ℚ :=
  g.productions.foldr (fun p acc => max p.1 acc) g.logVariable

/-- Expansion fuel sufficient for a budget: every expansion costs at
least `-maxWeight`, so depth beyond `budget / -maxWeight` is pruned by
the budget alone. -/
def Grammar.enumFuel (g : Grammar) (budget : ℚ) : Nat :=
  if g.maxWeight < 0 then (Int.ceil (budget / (-g.maxWeight))).toNat + 1 else 0

/-- Non-increasing likelihood order on enumeration results. -/
def llOrd (a b : ℚ × Context × Program) : Prop := b.1 ≤ a.1

instance : DecidableRel llOrd := fun a b => inferInstanceAs (Decidable (b.1 ≤ a.1))

instance : IsTotal (ℚ × Context × Program) llOrd := ⟨fun a b => le_total b.1 a.1⟩

instance : IsTrans (ℚ × Context × Program) llOrd :=
  ⟨fun _ _ _ h1 h2 => le_trans h2 h1⟩

/-- Modelled from the spec: `Grammar.enumeration(ctx, environment,
requestType, likelihoodBound, enumerateHoles)` — the bounded search
over the grammar, produced in non-increasing likelihood order.  The
lazy sequence of the implementation is modelled by the (finite) list
of all results. -/
def Grammar.enumeration (g : Grammar) (ctx : Context) (env : List Ty) (request : Ty)
    (likelihoodBound : ℚ) (enumerateHoles : Bool) : List (ℚ × Context × Program) :=
  (enumFull g (g.enumFuel likelihoodBound) ctx env request likelihoodBound
    enumerateHoles).insertionSort llOrd

mutual

/-- Every result of `enumFull` spends strictly less than the budget
and has non-positive log-likelihood. -/
theorem enumFull_ll_bound (g : Grammar) (fuel : Nat) (ctx : Context) (env : List Ty)
    (request : Ty) (budget : ℚ) (eh : Bool) (hg : g.negWeights) :
    ∀ x ∈ enumFull g fuel ctx env request budget eh, -budget < x.1 ∧ x.1 ≤ 0 := by
  intro x hx
  cases request with
  | arrow a r =>
    simp only [enumFull] at hx
    obtain ⟨y, hy, rfl⟩ := List.mem_map.1 hx
    exact enumFull_ll_bound g fuel ctx (a :: env) r budget eh hg y hy
  | tvar v =>
    cases fuel with
    | zero => simp [enumFull] at hx
    | succ fuel =>
      simp only [enumFull] at hx
      rcases List.mem_append.1 hx with h | h
      · by_cases hcond : (eh && decide (0 < budget)) = true
        · rw [if_pos hcond] at h
          simp at h
          obtain ⟨rfl, -⟩ := h
          have hb : 0 < budget := by
            simp at hcond
            exact hcond.2
          constructor
          · simpa using neg_neg_of_pos hb
          · simp
        · rw [if_neg hcond] at h
          simp at h
      · obtain ⟨c, hc, hx2⟩ := List.mem_flatMap.1 h
        by_cases hcw : 0 < budget + c.w
        · rw [if_pos hcw] at hx2
          obtain ⟨y, hy, rfl⟩ := List.mem_map.1 hx2
          have hwneg : c.w < 0 :=
            buildCandidates_w_neg g ctx env (.tvar v) hg c hc
          have hrec := enumArgs_ll_bound g fuel c.ctx env c.argTys (budget + c.w) eh hg hcw y hy
          constructor
          · simp only []
            linarith [hrec.1]
          · simp only []
            linarith [hrec.2]
        · rw [if_neg hcw] at hx2
          simp at hx2
  | tcon nm as =>
    cases fuel with
    | zero => simp [enumFull] at hx
    | succ fuel =>
      simp only [enumFull] at hx
      rcases List.mem_append.1 hx with h | h
      · by_cases hcond : (eh && decide (0 < budget)) = true
        · rw [if_pos hcond] at h
          simp at h
          obtain ⟨rfl, -⟩ := h
          have hb : 0 < budget := by
            simp at hcond
            exact hcond.2
          constructor
          · simpa using neg_neg_of_pos hb
          · simp
        · rw [if_neg hcond] at h
          simp at h
      · obtain ⟨c, hc, hx2⟩ := List.mem_flatMap.1 h
        by_cases hcw : 0 < budget + c.w
        · rw [if_pos hcw] at hx2
          obtain ⟨y, hy, rfl⟩ := List.mem_map.1 hx2
          have hwneg : c.w < 0 :=
            buildCandidates_w_neg g ctx env (.tcon nm as) hg c hc
          have hrec := enumArgs_ll_bound g fuel c.ctx env c.argTys (budget + c.w) eh hg hcw y hy
          constructor
          · simp only []
            linarith [hrec.1]
          · simp only []
            linarith [hrec.2]
        · rw [if_neg hcw] at hx2
          simp at hx2
termination_by (fuel, 1, sizeOf request)

/-- Every result of `enumArgs` with positive budget spends strictly
less than the budget and has non-positive log-likelihood. -/
theorem enumArgs_ll_bound (g : Grammar) (fuel : Nat) (ctx : Context) (env : List Ty)
    (argTys : List Ty) (budget : ℚ) (eh : Bool) (hg : g.negWeights) (hb : 0 < budget) :
    ∀ x ∈ enumArgs g fuel ctx env argTys budget eh, -budget < x.1 ∧ x.1 ≤ 0 := by
  intro x hx
  cases argTys with
  | nil =>
    simp only [enumArgs, List.mem_singleton] at hx
    subst hx
    constructor
    · simpa using neg_neg_of_pos hb
    · simp
  | cons t ts =>
    simp only [enumArgs] at hx
    obtain ⟨a, ha, hx2⟩ := List.mem_flatMap.1 hx
    obtain ⟨r2, hr2, rfl⟩ := List.mem_map.1 hx2
    have h1 := enumFull_ll_bound g fuel ctx env (ctx.applyCtx t) budget eh hg a ha
    have h2 := enumArgs_ll_bound g fuel a.2.1 env ts (budget + a.1) eh hg
      (by linarith [h1.1]) r2 hr2
    constructor
    · simp only []
      linarith [h1.1, h2.1]
    · simp only []
      linarith [h1.2, h2.2]
termination_by (fuel, 2, argTys.length)

end

/-- A small concrete grammar with strictly negative weights, used by
witnesses: one constant `c : int` and one function `f : int → int`. -/
def gW : Grammar :=
  ⟨-1, [(-1, tint, Program.prim ("c")), (-1, Ty.arrow tint tint, Program.prim ("f"))]⟩

/-! ### Termination of the bounded search (claim C3). -/

/-- Pointwise-equal functions give equal `flatMap`s. -/
theorem flatMap_congr {α β : Type} {l : List α} {f f2 : α → List β}
    (h : ∀ a ∈ l, f a = f2 a) : l.flatMap f = l.flatMap f2 := by
  induction l with
  | nil => rfl
  | cons a as ih =>
    simp only [List.flatMap_cons]
    rw [h a (by simp), ih (fun b hb => h b (by simp [hb]))]

/-- Every production weight is at most `maxWeight`. -/
theorem prod_le_maxWeight (g : Grammar) :
    ∀ p ∈ g.productions, p.1 ≤ g.maxWeight := by
  unfold Grammar.maxWeight
  induction g.productions with
  | nil => simp
  | cons q qs ih =>
    intro p hp
    rcases List.mem_cons.1 hp with rfl | hp
    · simp [List.foldr_cons]
    · simp only [List.foldr_cons]
      exact le_trans (ih p hp) (le_max_right _ _)

/-- The variable weight is at most `maxWeight`. -/
theorem logVariable_le_maxWeight (g : Grammar) : g.logVariable ≤ g.maxWeight := by
  unfold Grammar.maxWeight
  induction g.productions with
  | nil => simp
  | cons q qs ih =>
    simp only [List.foldr_cons]
    exact le_trans ih (le_max_right _ _)

/-- A fold of `max` over negative entries with a negative base stays
negative. -/
theorem foldr_max_neg (v : ℚ) (l : List (ℚ × Ty × Program)) (hv : v < 0)
    (hp : ∀ p ∈ l, p.1 < 0) : l.foldr (fun p acc => max p.1 acc) v < 0 := by
  induction l with
  | nil => simpa using hv
  | cons q qs ih =>
    simp only [List.foldr_cons]
    exact max_lt (hp q (by simp)) (ih (fun p h => hp p (by simp [h])))

/-- Under `negWeights` the largest weight is still negative. -/
theorem maxWeight_neg (g : Grammar) (hg : g.negWeights) : g.maxWeight < 0 :=
  foldr_max_neg g.logVariable g.productions hg.1 hg.2

/-- Every candidate weight is at most `maxWeight`. -/
theorem candidate_w_le_maxWeight (g : Grammar) (ctx : Context) (env : List Ty)
    (request : Ty) : ∀ c ∈ g.buildCandidates ctx env request, c.w ≤ g.maxWeight := by
  intro c hc
  rcases List.mem_append.1 hc with h | h
  · obtain ⟨prod, hmem, heq⟩ := List.mem_filterMap.1 h
    obtain ⟨ctx2, _, heq2⟩ := Option.map_eq_some'.1 heq
    cases heq2
    exact prod_le_maxWeight g prod hmem
  · obtain ⟨p, hmem, heq⟩ := List.mem_filterMap.1 h
    obtain ⟨ctx2, _, heq2⟩ := Option.map_eq_some'.1 heq
    cases heq2
    exact logVariable_le_maxWeight g

/-- With an exhausted budget the enumerator yields nothing: the hole
branch needs remaining budget and every candidate expansion would
overdraw. -/
theorem enumFull_budget_nonpos (g : Grammar) (hg : g.negWeights) (fuel : Nat)
    (ctx : Context) (env : List Ty) (request : Ty) (budget : ℚ) (eh : Bool)
    (hb : budget ≤ 0) :
    enumFull g fuel ctx env request budget eh = [] := by
  cases request with
  | arrow a r =>
    simp only [enumFull]
    rw [enumFull_budget_nonpos g hg fuel ctx (a :: env) r budget eh hb]
    rfl
  | tvar v =>
    cases fuel with
    | zero => simp [enumFull]
    | succ fuel =>
      simp only [enumFull]
      have hdec : decide (0 < budget) = false := decide_eq_false (by linarith)
      rw [hdec]
      simp only [Bool.and_false, Bool.false_eq_true, if_false, List.nil_append]
      apply List.flatMap_eq_nil_iff.2
      intro c hc
      have : c.w < 0 := buildCandidates_w_neg g ctx env (.tvar v) hg c hc
      rw [if_neg (by linarith)]
  | tcon nm as =>
    cases fuel with
    | zero => simp [enumFull]
    | succ fuel =>
      simp only [enumFull]
      have hdec : decide (0 < budget) = false := decide_eq_false (by linarith)
      rw [hdec]
      simp only [Bool.and_false, Bool.false_eq_true, if_false, List.nil_append]
      apply List.flatMap_eq_nil_iff.2
      intro c hc
      have : c.w < 0 := buildCandidates_w_neg g ctx env (.tcon nm as) hg c hc
      rw [if_neg (by linarith)]
termination_by sizeOf request

mutual

/-- Past the depth the budget can pay for, the enumerator's result no
longer depends on the fuel: the search has terminated. -/
theorem enumFull_fuel_stable (g : Grammar) (f1 f2 : Nat) (ctx : Context)
    (env : List Ty) (request : Ty) (budget : ℚ) (eh : Bool) (hg : g.negWeights)
    (h1 : budget ≤ (f1 : ℚ) * (-g.maxWeight)) (h2 : budget ≤ (f2 : ℚ) * (-g.maxWeight)) :
    enumFull g f1 ctx env request budget eh = enumFull g f2 ctx env request budget eh := by
  have hM : g.maxWeight < 0 := maxWeight_neg g hg
  cases request with
  | arrow a r =>
    simp only [enumFull]
    rw [enumFull_fuel_stable g f1 f2 ctx (a :: env) r budget eh hg h1 h2]
  | tvar v =>
    by_cases hb : budget ≤ 0
    · rw [enumFull_budget_nonpos g hg f1 ctx env (.tvar v) budget eh hb,
        enumFull_budget_nonpos g hg f2 ctx env (.tvar v) budget eh hb]
    · push_neg at hb
      match f1, f2 with
      | 0, _ =>
        exfalso
        simp at h1
        linarith
      | _ + 1, 0 =>
        exfalso
        simp at h2
        linarith
      | a + 1, b + 1 =>
        simp only [enumFull]
        congr 1
        apply flatMap_congr
        intro c hc
        by_cases hcw : 0 < budget + c.w
        · rw [if_pos hcw, if_pos hcw]
          have hcle : c.w ≤ g.maxWeight := candidate_w_le_maxWeight g ctx env (.tvar v) c hc
          have ha : budget + c.w ≤ (a : ℚ) * (-g.maxWeight) := by
            push_cast at h1 ⊢
            nlinarith
          have hb2 : budget + c.w ≤ (b : ℚ) * (-g.maxWeight) := by
            push_cast at h2 ⊢
            nlinarith
          rw [enumArgs_fuel_stable g a b c.ctx env c.argTys (budget + c.w) eh hg ha hb2]
        · rw [if_neg hcw, if_neg hcw]
  | tcon nm as =>
    by_cases hb : budget ≤ 0
    · rw [enumFull_budget_nonpos g hg f1 ctx env (.tcon nm as) budget eh hb,
        enumFull_budget_nonpos g hg f2 ctx env (.tcon nm as) budget eh hb]
    · push_neg at hb
      match f1, f2 with
      | 0, _ =>
        exfalso
        simp at h1
        linarith
      | _ + 1, 0 =>
        exfalso
        simp at h2
        linarith
      | a + 1, b + 1 =>
        simp only [enumFull]
        congr 1
        apply flatMap_congr
        intro c hc
        by_cases hcw : 0 < budget + c.w
        · rw [if_pos hcw, if_pos hcw]
          have hcle : c.w ≤ g.maxWeight := candidate_w_le_maxWeight g ctx env (.tcon nm as) c hc
          have ha : budget + c.w ≤ (a : ℚ) * (-g.maxWeight) := by
            push_cast at h1 ⊢
            nlinarith
          have hb2 : budget + c.w ≤ (b : ℚ) * (-g.maxWeight) := by
            push_cast at h2 ⊢
            nlinarith
          rw [enumArgs_fuel_stable g a b c.ctx env c.argTys (budget + c.w) eh hg ha hb2]
        · rw [if_neg hcw, if_neg hcw]
termination_by (f1, 1, sizeOf request)

/-- Fuel stability for argument enumeration. -/
theorem enumArgs_fuel_stable (g : Grammar) (f1 f2 : Nat) (ctx : Context)
    (env : List Ty) (argTys : List Ty) (budget : ℚ) (eh : Bool) (hg : g.negWeights)
    (h1 : budget ≤ (f1 : ℚ) * (-g.maxWeight)) (h2 : budget ≤ (f2 : ℚ) * (-g.maxWeight)) :
    enumArgs g f1 ctx env argTys budget eh = enumArgs g f2 ctx env argTys budget eh := by
  cases argTys with
  | nil => simp [enumArgs]
  | cons t ts =>
    simp only [enumArgs]
    rw [enumFull_fuel_stable g f1 f2 ctx env (ctx.applyCtx t) budget eh hg h1 h2]
    apply flatMap_congr
    intro a ha
    have hal : a.1 ≤ 0 :=
      (enumFull_ll_bound g f2 ctx env (ctx.applyCtx t) budget eh hg a ha).2
    rw [enumArgs_fuel_stable g f1 f2 a.2.1 env ts (budget + a.1) eh hg
      (by linarith) (by linarith)]
termination_by (f1, 2, argTys.length)

end

/-- The fuel picked by `Grammar.enumFuel` covers the budget. -/
theorem enumFuel_covers (g : Grammar) (budget : ℚ) (hM : g.maxWeight < 0) :
    budget ≤ ((g.enumFuel budget : ℕ) : ℚ) * (-g.maxWeight) := by
  have hδ : 0 < -g.maxWeight := by linarith
  unfold Grammar.enumFuel
  rw [if_pos hM]
  have h1 : budget / (-g.maxWeight) ≤ ((Int.ceil (budget / (-g.maxWeight)) : ℤ) : ℚ) :=
    Int.le_ceil _
  have h2 : ((Int.ceil (budget / (-g.maxWeight)) : ℤ) : ℚ) ≤
      (((Int.ceil (budget / (-g.maxWeight))).toNat : ℕ) : ℚ) := by
    exact_mod_cast Int.self_le_toNat _
  have h3 : budget / (-g.maxWeight) ≤ (((Int.ceil (budget / (-g.maxWeight))).toNat : ℕ) : ℚ) :=
    le_trans h1 h2
  have h4 : budget ≤ (((Int.ceil (budget / (-g.maxWeight))).toNat : ℕ) : ℚ) * (-g.maxWeight) :=
    (div_le_iff₀ hδ).1 h3
  push_cast
  nlinarith

/-! ### Likelihood and sketch completion. -/

/-- Find a production by its primitive's name (the spec's lookup used
in sketch replay; duplicate names would corrupt it, as the spec
warns). -/
def lookupProd (g : Grammar) (nm : String) : Option (ℚ × Ty) :=
  match g.productions.find? (fun prod =>
    match prod.2.2 with
    | .prim nm2 => nm2 == nm
    | _ => false) with
  | some prod => some (prod.1, prod.2.1)
  | none => none

/-- Score one leaf against a request: look up or instantiate its type
scheme, split off its argument types (requiring the eta-long arity),
and unify the return type with the request.  Shared by likelihood and
sketch replay.  Variable references all use the single
`logVariable` weight. -/
def leafLookup (g : Grammar) (ctx : Context) (env : List Ty) (leaf : Program)
    (request : Ty) (nargs : Nat) : Option (ℚ × List Ty × Context) :=
  match leaf with
  | .prim nm =>
    match lookupProd g nm with
    | none => none
    | some (w, t) =>
      let it := ctx.instantiate t
      let pa := peelArrows it.2
      if pa.1.length = nargs then
        (it.1.unify pa.2 request).map (fun c2 => (w, pa.1, c2))
      else none
  | .index i =>
    match env[i]? with
    | none => none
    | some t =>
      let pa := peelArrows t
      if pa.1.length = nargs then
        (ctx.unify pa.2 request).map (fun c2 => (g.logVariable, pa.1, c2))
      else none
  | _ => none

mutual

/-- Modelled from the spec: the missing `Grammar.logLikelihood` —
recursing over the program against the request, an arrow request must
meet an abstraction (descending with the environment extended), and an
application spine is scored by its leaf head's renormalized weight
plus the likelihoods of its arguments left-to-right, threading the
context.  `pending` accumulates the argument spine while descending
the applications. -/
def likHelp (g : Grammar) (ctx : Context) (env : List Ty) (request : Ty) :
    Program → List Program → Option (ℚ × Context)
  | .app f x, pending => likHelp g ctx env request f (x :: pending)
  | .abs b, pending =>
    match pending with
    | [] =>
      match ctx.applyCtx request with
      | .arrow a r => likHelp g ctx (a :: env) r b []
      | _ => none
    | _ :: _ => none
  | .hole _ _, _ => none
  | .prim nm, pending =>
    match leafLookup g ctx env (.prim nm) request pending.length with
    | none => none
    | some (w, argTys, ctx1) =>
      match likArgs g ctx1 env argTys pending with
      | none => none
      | some lc => some (w + lc.1, lc.2)
  | .index i, pending =>
    match leafLookup g ctx env (.index i) request pending.length with
    | none => none
    | some (w, argTys, ctx1) =>
      match likArgs g ctx1 env argTys pending with
      | none => none
      | some lc => some (w + lc.1, lc.2)
termination_by p pending => (2 * sizeOf p + 2 * sizeOf pending, sizeOf p)
decreasing_by all_goals (simp_wf; rw [Prod.lex_def]; omega)

/-- Likelihood of an argument list against its argument types,
threading the context left-to-right. -/
def likArgs (g : Grammar) (ctx : Context) (env : List Ty) :
    List Ty → List Program → Option (ℚ × Context)
  | [], [] => some (0, ctx)
  | t :: ts, a :: as =>
    match likHelp g ctx env (ctx.applyCtx t) a [] with
    | none => none
    | some lc =>
      match likArgs g lc.2 env ts as with
      | none => none
      | some lc2 => some (lc.1 + lc2.1, lc2.2)
  | _, _ => none
termination_by _ as => (2 * sizeOf as + 1, 0)
decreasing_by all_goals (simp_wf; rw [Prod.lex_def]; omega)

end

/-- Modelled from the spec: `Grammar.logLikelihood(requestType,
program)` — the total log-probability of a complete program, threading
the context functionally. -/
def Grammar.logLikelihood (g : Grammar) (ctx : Context) (env : List Ty)
    (request : Ty) (p : Program) : Option (ℚ × Context) :=
  likHelp g ctx env request p []

mutual

/-- Modelled from the spec: the missing `Grammar.sketchEnumeration`
search core — identical to enumeration except constrained to the shape
of the sketch: every non-hole node is replayed exactly, paying that
node's grammar cost as it goes, and every hole branches exactly as
ordinary enumeration under the remaining bound. -/
def sketchHelp (g : Grammar) (fuel : Nat) (ctx : Context) (env : List Ty)
    (request : Ty) (budget : ℚ) (eh : Bool) :
    Program → List Program → List (ℚ × Context × Program)
  | .app f x, pending => sketchHelp g fuel ctx env request budget eh f (x :: pending)
  | .abs b, pending =>
    match pending with
    | [] =>
      match ctx.applyCtx request with
      | .arrow a r =>
        (sketchHelp g fuel ctx (a :: env) r budget eh b []).map
          (fun y => (y.1, y.2.1, Program.abs y.2.2))
      | _ => []
    | _ :: _ => []
  | .hole _ _, pending =>
    match pending with
    | [] => enumFull g fuel ctx env (ctx.applyCtx request) budget eh
    | _ :: _ => []
  | .prim nm, pending =>
    match leafLookup g ctx env (.prim nm) request pending.length with
    | none => []
    | some (w, argTys, ctx1) =>
      (sketchArgs g fuel ctx1 env argTys pending (budget + w) eh).map
        (fun y => (w + y.1, y.2.1, mkApps (.prim nm) y.2.2))
  | .index i, pending =>
    match leafLookup g ctx env (.index i) request pending.length with
    | none => []
    | some (w, argTys, ctx1) =>
      (sketchArgs g fuel ctx1 env argTys pending (budget + w) eh).map
        (fun y => (w + y.1, y.2.1, mkApps (.index i) y.2.2))
termination_by p pending => (2 * sizeOf p + 2 * sizeOf pending, sizeOf p)
decreasing_by all_goals (simp_wf; rw [Prod.lex_def]; omega)

/-- Replay a list of sketch arguments against their argument types,
enumerating at the holes inside them under the shrinking budget. -/
def sketchArgs (g : Grammar) (fuel : Nat) (ctx : Context) (env : List Ty) :
    List Ty → List Program → ℚ → Bool → List (ℚ × Context × List Program)
  | [], [], _, _ => [(0, ctx, [])]
  | t :: ts, a :: as, budget, eh =>
    (sketchHelp g fuel ctx env (ctx.applyCtx t) budget eh a []).flatMap (fun y =>
      (sketchArgs g fuel y.2.1 env ts as (budget + y.1) eh).map
        (fun r2 => (y.1 + r2.1, r2.2.1, y.2.2 :: r2.2.2)))
  | _, _, _, _ => []
termination_by _ as _ _ => (2 * sizeOf as + 1, 0)
decreasing_by all_goals (simp_wf; rw [Prod.lex_def]; omega)

end

/-- Modelled from the spec: `Grammar.sketchEnumeration(ctx,
environment, requestType, sketch, likelihoodBound, enumerateHoles)` —
completions of the sketch in non-increasing likelihood order. -/
def Grammar.sketchEnumeration (g : Grammar) (ctx : Context) (env : List Ty)
    (request : Ty) (sketch : Program) (likelihoodBound : ℚ) (eh : Bool) :
    List (ℚ × Context × Program) :=
  (sketchHelp g (g.enumFuel likelihoodBound) ctx env request likelihoodBound eh
    sketch []).insertionSort llOrd

/-! ### Claim C2: completions agree with the sketch outside holes. -/

/-- Structural equality away from the first program's holes: a hole
matches any subtree, every other node must match exactly. -/
def agreesOutsideHoles : Program → Program → Bool
  | .hole _ _, _ => true
  | .index i, .index j => i == j
  | .prim nm, .prim nm2 => nm == nm2
  | .abs b, .abs c => agreesOutsideHoles b c
  | .app f x, .app f2 x2 => agreesOutsideHoles f f2 && agreesOutsideHoles x x2
  | _, _ => false

/-- Every program agrees with itself outside holes. -/
theorem agreesOutsideHoles_refl : ∀ p : Program, agreesOutsideHoles p p = true
  | .hole _ _ => rfl
  | .index _ => by simp [agreesOutsideHoles]
  | .prim _ => by simp [agreesOutsideHoles]
  | .abs b => by simp [agreesOutsideHoles, agreesOutsideHoles_refl b]
  | .app f x => by
    simp [agreesOutsideHoles, agreesOutsideHoles_refl f, agreesOutsideHoles_refl x]

/-- Agreement is preserved when both sides apply pairwise-agreeing
spines. -/
theorem agreesOutsideHoles_mkApps :
    ∀ (pending args : List Program) (s p : Program),
      agreesOutsideHoles s p = true →
      List.Forall₂ (fun a b => agreesOutsideHoles a b = true) pending args →
      agreesOutsideHoles (mkApps s pending) (mkApps p args) = true := by
  intro pending
  induction pending with
  | nil =>
    intro args s p hsp hfa
    cases hfa
    simpa [mkApps] using hsp
  | cons a as ih =>
    intro args s p hsp hfa
    cases hfa with
    | cons hab htail =>
      simp only [mkApps]
      apply ih _ _ _ _ htail
      simp [agreesOutsideHoles, hsp, hab]

mutual

/-- Every result of `sketchHelp` agrees with the replayed sketch (the
head applied to its pending spine) outside the sketch's holes. -/
theorem sketchHelp_agrees (g : Grammar) (fuel : Nat) (ctx : Context) (env : List Ty)
    (request : Ty) (budget : ℚ) (eh : Bool) (s : Program) (pending : List Program) :
    ∀ x ∈ sketchHelp g fuel ctx env request budget eh s pending,
      agreesOutsideHoles (mkApps s pending) x.2.2 = true := by
  intro x hx
  match s with
  | .app f a =>
    have := sketchHelp_agrees g fuel ctx env request budget eh f (a :: pending) x
      (by simpa [sketchHelp] using hx)
    simpa [mkApps] using this
  | .abs b =>
    match pending with
    | [] =>
      simp only [sketchHelp] at hx
      match hreq : ctx.applyCtx request with
      | .arrow a2 r =>
        rw [hreq] at hx
        obtain ⟨y, hy, rfl⟩ := List.mem_map.1 hx
        have := sketchHelp_agrees g fuel ctx (a2 :: env) r budget eh b [] y hy
        simpa [mkApps, agreesOutsideHoles] using this
      | .tvar v => rw [hreq] at hx; simp at hx
      | .tcon nm as => rw [hreq] at hx; simp at hx
    | _ :: _ => simp [sketchHelp] at hx
  | .hole t henv =>
    match pending with
    | [] => simp [mkApps, agreesOutsideHoles]
    | _ :: _ => simp [sketchHelp] at hx
  | .prim nm =>
    simp only [sketchHelp] at hx
    match hlk : leafLookup g ctx env (.prim nm) request pending.length with
    | none => rw [hlk] at hx; simp at hx
    | some (w, argTys, ctx1) =>
      rw [hlk] at hx
      obtain ⟨y, hy, rfl⟩ := List.mem_map.1 hx
      have hfa := sketchArgs_agrees g fuel ctx1 env argTys pending (budget + w) eh y hy
      exact agreesOutsideHoles_mkApps pending y.2.2 (.prim nm) (.prim nm)
        (agreesOutsideHoles_refl _) hfa
  | .index i =>
    simp only [sketchHelp] at hx
    match hlk : leafLookup g ctx env (.index i) request pending.length with
    | none => rw [hlk] at hx; simp at hx
    | some (w, argTys, ctx1) =>
      rw [hlk] at hx
      obtain ⟨y, hy, rfl⟩ := List.mem_map.1 hx
      have hfa := sketchArgs_agrees g fuel ctx1 env argTys pending (budget + w) eh y hy
      exact agreesOutsideHoles_mkApps pending y.2.2 (.index i) (.index i)
        (agreesOutsideHoles_refl _) hfa
termination_by (2 * sizeOf s + 2 * sizeOf pending, sizeOf s)
decreasing_by all_goals (simp_wf; rw [Prod.lex_def]; omega)

/-- Every result of `sketchArgs` agrees pairwise with the sketch's
argument list outside holes. -/
theorem sketchArgs_agrees (g : Grammar) (fuel : Nat) (ctx : Context) (env : List Ty)
    (argTys : List Ty) (as : List Program) (budget : ℚ) (eh : Bool) :
    ∀ x ∈ sketchArgs g fuel ctx env argTys as budget eh,
      List.Forall₂ (fun a b => agreesOutsideHoles a b = true) as x.2.2 := by
  intro x hx
  match argTys, as with
  | [], [] =>
    simp only [sketchArgs, List.mem_singleton] at hx
    subst hx
    exact List.Forall₂.nil
  | t :: ts, a :: rest =>
    simp only [sketchArgs] at hx
    obtain ⟨y, hy, hx2⟩ := List.mem_flatMap.1 hx
    obtain ⟨r2, hr2, rfl⟩ := List.mem_map.1 hx2
    have h1 := sketchHelp_agrees g fuel ctx env (ctx.applyCtx t) budget eh a [] y hy
    have h2 := sketchArgs_agrees g fuel y.2.1 env ts rest (budget + y.1) eh r2 hr2
    exact List.Forall₂.cons (by simpa [mkApps] using h1) h2
  | [], _ :: _ => simp [sketchArgs] at hx
  | _ :: _, [] => simp [sketchArgs] at hx
termination_by (2 * sizeOf as + 1, 0)
decreasing_by all_goals (simp_wf; rw [Prod.lex_def]; omega)

end

/-- Claim C2: every completion yielded by `Grammar.sketchEnumeration`
for a sketch is syntactically identical to the sketch at every
position outside the sketch's holes. -/
theorem sketchEnumeration_agrees (g : Grammar) (ctx : Context) (env : List Ty)
    (request : Ty) (sketch : Program) (b : ℚ) (eh : Bool) :
    ∀ x ∈ g.sketchEnumeration ctx env request sketch b eh,
      agreesOutsideHoles sketch x.2.2 = true := by
  intro x hx
  have hx2 : x ∈ sketchHelp g (g.enumFuel b) ctx env request b eh sketch [] :=
    (List.Perm.mem_iff (List.perm_insertionSort llOrd _)).1 hx
  have := sketchHelp_agrees g (g.enumFuel b) ctx env request b eh sketch [] x hx2
  simpa [mkApps] using this

/-- The sketch `f <HOLE>` over the witness grammar. -/
def sketchW : Program := Program.app (Program.prim ("f")) (Program.hole tint [])

/-- The one completion of `sketchW` under `gW` with bound 3. -/
theorem sketchW_enumeration_eval :
    gW.sketchEnumeration Context.EMPTY [] tint sketchW 3 false =
      [((-2 : ℚ), Context.EMPTY,
        Program.app (Program.prim ("f")) (Program.prim ("c")))] := by
  simp [Grammar.sketchEnumeration, sketchHelp, sketchArgs, enumFull, enumArgs,
    Grammar.enumFuel, Grammar.maxWeight, gW, sketchW, leafLookup, lookupProd,
    Grammar.buildCandidates, Context.instantiate, Context.unify, unifyFuel,
    unifyListFuel, Context.applyCtx, applySub, applySubList, occursIn,
    occursInList, collectVars, collectVarsList, tyWeight, tyWeightList,
    Context.EMPTY, tint, peelArrows, mkApps, List.insertionSort,
    List.orderedInsert, llOrd, Context.bindVar]
  norm_num [mkApps, List.insertionSort, List.orderedInsert, llOrd]

/-- Witness for C2: the single completion of `f <HOLE>` under `gW`
with bound 3 is `f c`, which agrees with the sketch outside its
hole. -/
theorem sketchEnumeration_agrees_witness :
    agreesOutsideHoles sketchW
      (Program.app (Program.prim ("f")) (Program.prim ("c"))) = true := by
  exact sketchEnumeration_agrees gW Context.EMPTY [] tint sketchW 3 false
    ((-2 : ℚ), Context.EMPTY,
      Program.app (Program.prim ("f")) (Program.prim ("c")))
    (by rw [sketchW_enumeration_eval]; exact List.mem_singleton_self _)

/-! ### Claim C7: a hole-free sketch replays to exactly itself. -/

mutual

/-- On a hole-free sketch, `sketchHelp` yields exactly the replayed
program with the log-likelihood `likHelp` computes for it (or nothing
when the sketch is ill-typed and the likelihood is undefined). -/
theorem sketchHelp_complete (g : Grammar) (fuel : Nat) (ctx : Context) (env : List Ty)
    (request : Ty) (budget : ℚ) (eh : Bool) (s : Program) (pending : List Program)
    (hs : s.hasHoles = false) (hp : ∀ a ∈ pending, a.hasHoles = false) :
    sketchHelp g fuel ctx env request budget eh s pending =
      (match likHelp g ctx env request s pending with
       | some lc => [(lc.1, lc.2, mkApps s pending)]
       | none => []) := by
  match s with
  | .app f a =>
    simp only [Program.hasHoles, Bool.or_eq_false_iff] at hs
    have hrec := sketchHelp_complete g fuel ctx env request budget eh f (a :: pending)
      hs.1 (by
        intro b hb
        rcases List.mem_cons.1 hb with rfl | hb
        · exact hs.2
        · exact hp b hb)
    rw [show sketchHelp g fuel ctx env request budget eh (.app f a) pending =
        sketchHelp g fuel ctx env request budget eh f (a :: pending) from by
      simp [sketchHelp]]
    rw [hrec]
    simp only [likHelp, mkApps]
  | .abs b =>
    match pending with
    | [] =>
      simp only [Program.hasHoles] at hs
      simp only [sketchHelp, likHelp]
      match hreq : ctx.applyCtx request with
      | .arrow a2 r =>
        dsimp only
        rw [sketchHelp_complete g fuel ctx (a2 :: env) r budget eh b [] hs (by simp)]
        match hlik : likHelp g ctx (a2 :: env) r b [] with
        | some lc => simp [hlik, mkApps]
        | none => simp [hlik]
      | .tvar v => simp
      | .tcon nm as => simp
    | q :: qs =>
      have : (Program.abs b).hasHoles = false := hs
      simp [sketchHelp, likHelp]
  | .hole t henv => simp [Program.hasHoles] at hs
  | .prim nm =>
    simp only [sketchHelp, likHelp]
    match hlk : leafLookup g ctx env (.prim nm) request pending.length with
    | none => simp
    | some (w, argTys, ctx1) =>
      simp only []
      rw [sketchArgs_complete g fuel ctx1 env argTys pending (budget + w) eh hp]
      match hargs : likArgs g ctx1 env argTys pending with
      | some lc => simp [hargs]
      | none => simp [hargs]
  | .index i =>
    simp only [sketchHelp, likHelp]
    match hlk : leafLookup g ctx env (.index i) request pending.length with
    | none => simp
    | some (w, argTys, ctx1) =>
      simp only []
      rw [sketchArgs_complete g fuel ctx1 env argTys pending (budget + w) eh hp]
      match hargs : likArgs g ctx1 env argTys pending with
      | some lc => simp [hargs]
      | none => simp [hargs]
termination_by (2 * sizeOf s + 2 * sizeOf pending, sizeOf s)
decreasing_by all_goals (simp_wf; rw [Prod.lex_def]; omega)

/-- On hole-free arguments, `sketchArgs` yields exactly the argument
list with the likelihood `likArgs` computes. -/
theorem sketchArgs_complete (g : Grammar) (fuel : Nat) (ctx : Context) (env : List Ty)
    (argTys : List Ty) (as : List Program) (budget : ℚ) (eh : Bool)
    (hp : ∀ a ∈ as, a.hasHoles = false) :
    sketchArgs g fuel ctx env argTys as budget eh =
      (match likArgs g ctx env argTys as with
       | some lc => [(lc.1, lc.2, as)]
       | none => []) := by
  match argTys, as with
  | [], [] => simp [sketchArgs, likArgs]
  | [], q :: qs => simp [sketchArgs, likArgs]
  | t :: ts, [] => simp [sketchArgs, likArgs]
  | t :: ts, a :: rest =>
    simp only [sketchArgs]
    rw [sketchHelp_complete g fuel ctx env (ctx.applyCtx t) budget eh a []
      (hp a (by simp)) (by simp)]
    simp only [likArgs]
    match hlik : likHelp g ctx env (ctx.applyCtx t) a [] with
    | none => simp
    | some lc =>
      simp only [List.flatMap_cons, List.flatMap_nil, List.append_nil, mkApps]
      rw [sketchArgs_complete g fuel lc.2 env ts rest (budget + lc.1) eh
        (fun b hb => hp b (by simp [hb]))]
      match hargs : likArgs g lc.2 env ts rest with
      | some lc2 => simp
      | none => simp
termination_by (2 * sizeOf as + 1, 0)
decreasing_by all_goals (simp_wf; rw [Prod.lex_def]; omega)

end

/-- Claim C7: `Grammar.sketchEnumeration` applied to a sketch with
zero holes yields exactly one result — the sketch itself — and its
reported log-likelihood is `Grammar.logLikelihood` of that program for
the same request. -/
theorem sketchEnumeration_of_complete (g : Grammar) (ctx : Context) (env : List Ty)
    (request : Ty) (s : Program) (b : ℚ) (eh : Bool)
    (hs : s.hasHoles = false) (ll : ℚ) (ctx2 : Context)
    (hlik : g.logLikelihood ctx env request s = some (ll, ctx2)) :
    g.sketchEnumeration ctx env request s b eh = [(ll, ctx2, s)] := by
  unfold Grammar.sketchEnumeration
  rw [sketchHelp_complete g (g.enumFuel b) ctx env request b eh s [] hs (by simp)]
  unfold Grammar.logLikelihood at hlik
  rw [hlik]
  simp [mkApps, List.insertionSort]

/-- The complete program `f c` over the witness grammar. -/
def completeW : Program := Program.app (Program.prim ("f")) (Program.prim ("c"))

/-- The direct log-likelihood of `completeW` under `gW`. -/
theorem completeW_logLikelihood_eval :
    gW.logLikelihood Context.EMPTY [] tint completeW = some (-2, Context.EMPTY) := by
  simp [Grammar.logLikelihood, likHelp, likArgs, gW, completeW, leafLookup,
    lookupProd, Context.instantiate, Context.unify, unifyFuel, unifyListFuel,
    Context.applyCtx, applySub, applySubList, occursIn, occursInList,
    collectVars, collectVarsList, tyWeight, tyWeightList, Context.EMPTY, tint,
    peelArrows, Context.bindVar]
  norm_num

/-- Witness for C7: `sketchEnumeration` on the hole-free `f c` yields
exactly `[f c]` at its direct log-likelihood. -/
theorem sketchEnumeration_of_complete_witness :
    gW.sketchEnumeration Context.EMPTY [] tint completeW 3 false =
      [((-2 : ℚ), Context.EMPTY, completeW)] :=
  sketchEnumeration_of_complete gW Context.EMPTY [] tint completeW 3 false
    (by decide) (-2) Context.EMPTY completeW_logLikelihood_eval

/-! ### Claim C3: the bounded search terminates. -/

/-- A successful leaf lookup returns a production weight or the
variable weight, hence a negative one under `negWeights`. -/
theorem leafLookup_w_neg (g : Grammar) (ctx : Context) (env : List Ty)
    (leaf : Program) (request : Ty) (nargs : Nat) (w : ℚ) (argTys : List Ty)
    (ctx1 : Context) (hg : g.negWeights)
    (h : leafLookup g ctx env leaf request nargs = some (w, argTys, ctx1)) :
    w < 0 := by
  match leaf with
  | .prim nm =>
    simp only [leafLookup] at h
    match hlp : lookupProd g nm with
    | none => rw [hlp] at h; simp at h
    | some (w2, t) =>
      rw [hlp] at h
      dsimp only at h
      split at h
      · obtain ⟨ctx2, -, heq⟩ := Option.map_eq_some'.1 h
        cases heq
        simp only [lookupProd] at hlp
        split at hlp
        · next prod hfind =>
          have hmem := List.mem_of_find?_eq_some hfind
          have hneg := hg.2 prod hmem
          simp only [Option.some.injEq, Prod.mk.injEq] at hlp
          rw [← hlp.1]
          exact hneg
        · simp at hlp
      · simp at h
  | .index i =>
    simp only [leafLookup] at h
    match henv : env[i]? with
    | none => rw [henv] at h; simp at h
    | some t =>
      rw [henv] at h
      dsimp only at h
      split at h
      · obtain ⟨ctx2, -, heq⟩ := Option.map_eq_some'.1 h
        cases heq
        exact hg.1
      · simp at h
  | .abs b => simp [leafLookup] at h
  | .app f x => simp [leafLookup] at h
  | .hole t e => simp [leafLookup] at h

mutual

/-- Sketch-replay results never have positive log-likelihood. -/
theorem sketchHelp_ll_nonpos (g : Grammar) (fuel : Nat) (ctx : Context)
    (env : List Ty) (request : Ty) (budget : ℚ) (eh : Bool) (s : Program)
    (pending : List Program) (hg : g.negWeights) :
    ∀ x ∈ sketchHelp g fuel ctx env request budget eh s pending, x.1 ≤ 0 := by
  intro x hx
  match s with
  | .app f a =>
    exact sketchHelp_ll_nonpos g fuel ctx env request budget eh f (a :: pending) hg x
      (by simpa [sketchHelp] using hx)
  | .abs b =>
    match pending with
    | [] =>
      simp only [sketchHelp] at hx
      match hreq : ctx.applyCtx request with
      | .arrow a2 r =>
        rw [hreq] at hx
        obtain ⟨y, hy, rfl⟩ := List.mem_map.1 hx
        exact sketchHelp_ll_nonpos g fuel ctx (a2 :: env) r budget eh b [] hg y hy
      | .tvar v => rw [hreq] at hx; simp at hx
      | .tcon nm as => rw [hreq] at hx; simp at hx
    | _ :: _ => simp [sketchHelp] at hx
  | .hole t henv =>
    match pending with
    | [] =>
      exact (enumFull_ll_bound g fuel ctx env (ctx.applyCtx request) budget eh hg x
        (by simpa [sketchHelp] using hx)).2
    | _ :: _ => simp [sketchHelp] at hx
  | .prim nm =>
    simp only [sketchHelp] at hx
    match hlk : leafLookup g ctx env (.prim nm) request pending.length with
    | none => rw [hlk] at hx; simp at hx
    | some (w, argTys, ctx1) =>
      rw [hlk] at hx
      obtain ⟨y, hy, rfl⟩ := List.mem_map.1 hx
      have hw := leafLookup_w_neg g ctx env (.prim nm) request pending.length
        w argTys ctx1 hg hlk
      have hy2 := sketchArgs_ll_nonpos g fuel ctx1 env argTys pending (budget + w) eh hg y hy
      simp only []
      linarith
  | .index i =>
    simp only [sketchHelp] at hx
    match hlk : leafLookup g ctx env (.index i) request pending.length with
    | none => rw [hlk] at hx; simp at hx
    | some (w, argTys, ctx1) =>
      rw [hlk] at hx
      obtain ⟨y, hy, rfl⟩ := List.mem_map.1 hx
      have hw := leafLookup_w_neg g ctx env (.index i) request pending.length
        w argTys ctx1 hg hlk
      have hy2 := sketchArgs_ll_nonpos g fuel ctx1 env argTys pending (budget + w) eh hg y hy
      simp only []
      linarith
termination_by (2 * sizeOf s + 2 * sizeOf pending, sizeOf s)
decreasing_by all_goals (simp_wf; rw [Prod.lex_def]; omega)

/-- Argument-replay results never have positive log-likelihood. -/
theorem sketchArgs_ll_nonpos (g : Grammar) (fuel : Nat) (ctx : Context)
    (env : List Ty) (argTys : List Ty) (as : List Program) (budget : ℚ) (eh : Bool)
    (hg : g.negWeights) :
    ∀ x ∈ sketchArgs g fuel ctx env argTys as budget eh, x.1 ≤ 0 := by
  intro x hx
  match argTys, as with
  | [], [] =>
    simp only [sketchArgs, List.mem_singleton] at hx
    subst hx
    simp
  | t :: ts, a :: rest =>
    simp only [sketchArgs] at hx
    obtain ⟨y, hy, hx2⟩ := List.mem_flatMap.1 hx
    obtain ⟨r2, hr2, rfl⟩ := List.mem_map.1 hx2
    have h1 := sketchHelp_ll_nonpos g fuel ctx env (ctx.applyCtx t) budget eh a [] hg y hy
    have h2 := sketchArgs_ll_nonpos g fuel y.2.1 env ts rest (budget + y.1) eh hg r2 hr2
    simp only []
    linarith
  | [], _ :: _ => simp [sketchArgs] at hx
  | _ :: _, [] => simp [sketchArgs] at hx
termination_by (2 * sizeOf as + 1, 0)
decreasing_by all_goals (simp_wf; rw [Prod.lex_def]; omega)

end

mutual

/-- Past the fuel the budget can pay for, sketch replay no longer
depends on the fuel. -/
theorem sketchHelp_fuel_stable (g : Grammar) (f1 f2 : Nat) (ctx : Context)
    (env : List Ty) (request : Ty) (budget : ℚ) (eh : Bool) (s : Program)
    (pending : List Program) (hg : g.negWeights)
    (h1 : budget ≤ (f1 : ℚ) * (-g.maxWeight)) (h2 : budget ≤ (f2 : ℚ) * (-g.maxWeight)) :
    sketchHelp g f1 ctx env request budget eh s pending =
      sketchHelp g f2 ctx env request budget eh s pending := by
  match s with
  | .app f a =>
    rw [show sketchHelp g f1 ctx env request budget eh (.app f a) pending =
        sketchHelp g f1 ctx env request budget eh f (a :: pending) from by
      simp [sketchHelp]]
    rw [show sketchHelp g f2 ctx env request budget eh (.app f a) pending =
        sketchHelp g f2 ctx env request budget eh f (a :: pending) from by
      simp [sketchHelp]]
    exact sketchHelp_fuel_stable g f1 f2 ctx env request budget eh f (a :: pending)
      hg h1 h2
  | .abs b =>
    match pending with
    | [] =>
      simp only [sketchHelp]
      match hreq : ctx.applyCtx request with
      | .arrow a2 r =>
        dsimp only
        rw [sketchHelp_fuel_stable g f1 f2 ctx (a2 :: env) r budget eh b [] hg h1 h2]
      | .tvar v => rfl
      | .tcon nm as => rfl
    | _ :: _ => simp [sketchHelp]
  | .hole t henv =>
    match pending with
    | [] =>
      simp only [sketchHelp]
      exact enumFull_fuel_stable g f1 f2 ctx env (ctx.applyCtx request) budget eh hg h1 h2
    | _ :: _ => simp [sketchHelp]
  | .prim nm =>
    simp only [sketchHelp]
    match hlk : leafLookup g ctx env (.prim nm) request pending.length with
    | none => rfl
    | some (w, argTys, ctx1) =>
      dsimp only
      have hw := leafLookup_w_neg g ctx env (.prim nm) request pending.length
        w argTys ctx1 hg hlk
      rw [sketchArgs_fuel_stable g f1 f2 ctx1 env argTys pending (budget + w) eh hg
        (by linarith) (by linarith)]
  | .index i =>
    simp only [sketchHelp]
    match hlk : leafLookup g ctx env (.index i) request pending.length with
    | none => rfl
    | some (w, argTys, ctx1) =>
      dsimp only
      have hw := leafLookup_w_neg g ctx env (.index i) request pending.length
        w argTys ctx1 hg hlk
      rw [sketchArgs_fuel_stable g f1 f2 ctx1 env argTys pending (budget + w) eh hg
        (by linarith) (by linarith)]
termination_by (2 * sizeOf s + 2 * sizeOf pending, sizeOf s)
decreasing_by all_goals (simp_wf; rw [Prod.lex_def]; omega)

/-- Fuel stability for argument replay. -/
theorem sketchArgs_fuel_stable (g : Grammar) (f1 f2 : Nat) (ctx : Context)
    (env : List Ty) (argTys : List Ty) (as : List Program) (budget : ℚ) (eh : Bool)
    (hg : g.negWeights)
    (h1 : budget ≤ (f1 : ℚ) * (-g.maxWeight)) (h2 : budget ≤ (f2 : ℚ) * (-g.maxWeight)) :
    sketchArgs g f1 ctx env argTys as budget eh =
      sketchArgs g f2 ctx env argTys as budget eh := by
  match argTys, as with
  | [], [] => simp [sketchArgs]
  | t :: ts, a :: rest =>
    simp only [sketchArgs]
    rw [sketchHelp_fuel_stable g f1 f2 ctx env (ctx.applyCtx t) budget eh a [] hg h1 h2]
    apply flatMap_congr
    intro y hy
    have hy2 : y.1 ≤ 0 :=
      sketchHelp_ll_nonpos g f2 ctx env (ctx.applyCtx t) budget eh a [] hg y hy
    rw [sketchArgs_fuel_stable g f1 f2 y.2.1 env ts rest (budget + y.1) eh hg
      (by linarith) (by linarith)]
  | [], _ :: _ => simp [sketchArgs]
  | _ :: _, [] => simp [sketchArgs]
termination_by (2 * sizeOf as + 1, 0)
decreasing_by all_goals (simp_wf; rw [Prod.lex_def]; omega)

end

/-- Claim C3: with a finite bound and strictly negative production
weights, the search behind `Grammar.enumeration` and
`Grammar.sketchEnumeration` terminates: beyond the expansion depth
`Grammar.enumFuel` pays for, deeper exploration of the (conceptually
infinite) program space changes nothing, because every expansion
strictly consumes log-probability budget.  Driven to exhaustion, both
sequences are therefore the finite lists these functions return. -/
theorem search_terminates (g : Grammar) (ctx : Context) (env : List Ty)
    (request : Ty) (sketch : Program) (b : ℚ) (eh : Bool) (hg : g.negWeights) :
    ∀ fuel, g.enumFuel b ≤ fuel →
      ((enumFull g fuel ctx env request b eh).insertionSort llOrd =
        g.enumeration ctx env request b eh) ∧
      ((sketchHelp g fuel ctx env request b eh sketch []).insertionSort llOrd =
        g.sketchEnumeration ctx env request sketch b eh) := by
  intro fuel hf
  have hM := maxWeight_neg g hg
  have hcov := enumFuel_covers g b hM
  have hfq : ((g.enumFuel b : ℕ) : ℚ) ≤ (fuel : ℚ) := by exact_mod_cast hf
  have hδ : (0 : ℚ) < -g.maxWeight := by linarith
  have hcov2 : b ≤ (fuel : ℚ) * (-g.maxWeight) := le_trans hcov (by nlinarith)
  constructor
  · unfold Grammar.enumeration
    rw [enumFull_fuel_stable g fuel (g.enumFuel b) ctx env request b eh hg hcov2 hcov]
  · unfold Grammar.sketchEnumeration
    rw [sketchHelp_fuel_stable g fuel (g.enumFuel b) ctx env request b eh sketch []
      hg hcov2 hcov]

/-- Witness for C3: at the concrete grammar `gW`, one more unit of
fuel past `enumFuel` changes neither sequence. -/
theorem search_terminates_witness :
    ((enumFull gW (gW.enumFuel 3 + 1) Context.EMPTY [] tint 3 false).insertionSort
        llOrd = gW.enumeration Context.EMPTY [] tint 3 false) ∧
    ((sketchHelp gW (gW.enumFuel 3 + 1) Context.EMPTY [] tint 3 false
        sketchW []).insertionSort llOrd =
      gW.sketchEnumeration Context.EMPTY [] tint sketchW 3 false) :=
  search_terminates gW Context.EMPTY [] tint sketchW 3 false (by decide)
    (gW.enumFuel 3 + 1) (Nat.le_succ _)

/-! ### The sampler. -/

/-- One draw from the stream of random numbers supplied to the
sampler (exhaustion repeats `0`). -/
def drawRand (rnd : List ℚ) : ℚ × List ℚ := (rnd.headD 0, rnd.tail)

/-- Turn a draw into an index below `n` (for `n > 0`): the fractional
part lies in `[0, 1)`, so the scaled floor lies in `0 .. n-1`. -/
def pickIndex (r : ℚ) (n : Nat) : Nat := (Int.floor (Int.fract r * n)).toNat

/-- Productions and environment references carry hole-free leaves
(primitive, invented and variable leaves only). -/
def Grammar.holeFreeLeaves (g : Grammar) : Prop :=
  ∀ p ∈ g.productions, p.2.2.hasHoles = false

instance (g : Grammar) : Decidable g.holeFreeLeaves := by
  unfold Grammar.holeFreeLeaves; infer_instance

/-- Draw one candidate for a non-arrow request: `none` when no
production or variable is type-compatible (a dead end), otherwise the
candidate the draw points at. -/
def chooseCandidate (g : Grammar) (r : ℚ) (ctx : Context) (env : List Ty)
    (req : Ty) : Option Candidate :=
  if (g.buildCandidates ctx env req).isEmpty then none
  else some ((g.buildCandidates ctx env req).getD
    (pickIndex r (g.buildCandidates ctx env req).length) default)

mutual

/-- Modelled from the spec: the missing `Grammar.sample` draw — a
single top-down probabilistic generation.  An arrow request introduces
an abstraction; otherwise, with probability `sampleHoleProb` the site
becomes a `Hole` (one independent draw per expansion site), else a
type-compatible candidate is drawn and its arguments are sampled
left-to-right.  Dead ends (no candidates, depth exhausted) fail; the
supplied stream determines the draws, abstracting the exponentiated
weight distribution of the implementation. -/
def sampleFull (g : Grammar) (rnd : List ℚ) (depth : Nat) (ctx : Context)
    (env : List Ty) (request : Ty) (holeProb : ℚ) :
    Option (Program × Context × List ℚ) :=
  match depth, request with
  | depth, .arrow a r =>
    (sampleFull g rnd depth ctx (a :: env) r holeProb).map
      (fun y => (Program.abs y.1, y.2.1, y.2.2))
  | 0, _ => none
  | depth + 1, req =>
    if Int.fract (rnd.headD 0) < holeProb then some (.hole req env, ctx, rnd.tail)
    else
      match chooseCandidate g (rnd.tail.headD 0) ctx env req with
      | none => none
      | some c =>
        (sampleArgs g rnd.tail.tail depth c.ctx env c.argTys holeProb).map
          (fun y => (mkApps c.leaf y.1, y.2.1, y.2.2))
termination_by (depth, 1, sizeOf request)

/-- Sample fillings for a list of argument types left-to-right,
threading context and randomness. -/
def sampleArgs (g : Grammar) (rnd : List ℚ) (depth : Nat) (ctx : Context)
    (env : List Ty) (argTys : List Ty) (holeProb : ℚ) :
    Option (List Program × Context × List ℚ) :=
  match argTys with
  | [] => some ([], ctx, rnd)
  | t :: ts =>
    match sampleFull g rnd depth ctx env (ctx.applyCtx t) holeProb with
    | none => none
    | some (p, c1, rnd1) =>
      match sampleArgs g rnd1 depth c1 env ts holeProb with
      | none => none
      | some y => some (p :: y.1, y.2.1, y.2.2)
termination_by (depth, 2, argTys.length)

end

/-- Modelled from the spec: `Grammar.sample(request, maximumDepth,
maxAttempts, sampleHoleProb)` — retries the single-pass draw up to
`maxAttempts` times when it dead-ends (`SamplingExhausted`, here
`none`, when the retries run out). -/
def Grammar.sample (g : Grammar) (rnd : List ℚ) (request : Ty)
    (maximumDepth : Nat) (maxAttempts : Nat) (sampleHoleProb : ℚ) : Option Program :=
  match maxAttempts with
  | 0 => none
  | attempts + 1 =>
    match sampleFull g rnd maximumDepth Context.EMPTY [] request sampleHoleProb with
    | some y => some y.1
    | none => g.sample rnd.tail request maximumDepth attempts sampleHoleProb

/-- `hasHoles` over an application spine. -/
theorem hasHoles_mkApps : ∀ (as : List Program) (f : Program),
    (mkApps f as).hasHoles = (f.hasHoles || as.any (fun a => a.hasHoles)) := by
  intro as
  induction as with
  | nil => intro f; simp [mkApps]
  | cons a rest ih =>
    intro f
    simp [mkApps, ih (Program.app f a), Program.hasHoles, Bool.or_assoc]

/-- Candidate leaves are hole-free for a grammar with hole-free
production leaves (environment references always are). -/
theorem buildCandidates_leaf_holeFree (g : Grammar) (ctx : Context) (env : List Ty)
    (request : Ty) (hleaves : g.holeFreeLeaves) :
    ∀ c ∈ g.buildCandidates ctx env request, c.leaf.hasHoles = false := by
  intro c hc
  rcases List.mem_append.1 hc with h | h
  · obtain ⟨prod, hmem, heq⟩ := List.mem_filterMap.1 h
    obtain ⟨ctx2, -, heq2⟩ := Option.map_eq_some'.1 heq
    cases heq2
    exact hleaves prod hmem
  · obtain ⟨p, hmem, heq⟩ := List.mem_filterMap.1 h
    obtain ⟨ctx2, -, heq2⟩ := Option.map_eq_some'.1 heq
    cases heq2
    rfl

/-- The drawn candidate's leaf is hole-free: it is either a member of
the candidate list or the default variable reference. -/
theorem chooseCandidate_leaf_holeFree (g : Grammar) (r : ℚ) (ctx : Context)
    (env : List Ty) (req : Ty) (hleaves : g.holeFreeLeaves) (c : Candidate)
    (h : chooseCandidate g r ctx env req = some c) : c.leaf.hasHoles = false := by
  simp only [chooseCandidate] at h
  split at h
  · simp at h
  · obtain rfl : (g.buildCandidates ctx env req).getD
        (pickIndex r (g.buildCandidates ctx env req).length) default = c := by
      simpa using h
    by_cases hi : pickIndex r (g.buildCandidates ctx env req).length <
        (g.buildCandidates ctx env req).length
    · rw [List.getD_eq_getElem _ _ hi]
      exact buildCandidates_leaf_holeFree g ctx env req hleaves _ (List.getElem_mem hi)
    · rw [List.getD_eq_default _ _ (by omega)]
      rfl

mutual

/-- With `sampleHoleProb = 0` the hole branch can never fire (the
fractional part of a draw is never below zero), so a sampled program
contains no `Hole`. -/
theorem sampleFull_no_holes (g : Grammar) (rnd : List ℚ) (depth : Nat)
    (ctx : Context) (env : List Ty) (request : Ty) (hleaves : g.holeFreeLeaves) :
    ∀ y, sampleFull g rnd depth ctx env request 0 = some y →
      y.1.hasHoles = false := by
  intro y hy
  cases request with
  | arrow a r =>
    simp only [sampleFull] at hy
    obtain ⟨y2, hy2, rfl⟩ := Option.map_eq_some'.1 hy
    simpa [Program.hasHoles] using
      sampleFull_no_holes g rnd depth ctx (a :: env) r hleaves y2 hy2
  | tvar v =>
    cases depth with
    | zero => simp [sampleFull] at hy
    | succ depth =>
      simp only [sampleFull] at hy
      rw [if_neg (by simp [Int.fract_nonneg (rnd.headD 0)])] at hy
      split at hy
      · simp at hy
      · next c hc =>
        obtain ⟨y2, hy2, rfl⟩ := Option.map_eq_some'.1 hy
        rw [hasHoles_mkApps]
        rw [chooseCandidate_leaf_holeFree g (rnd.tail.headD 0) ctx env (.tvar v)
          hleaves c hc]
        simp only [Bool.false_or, List.any_eq_false]
        intro p hp
        have := sampleArgs_no_holes g rnd.tail.tail depth c.ctx env c.argTys
          hleaves y2 hy2 p hp
        simp [this]
  | tcon nm as =>
    cases depth with
    | zero => simp [sampleFull] at hy
    | succ depth =>
      simp only [sampleFull] at hy
      rw [if_neg (by simp [Int.fract_nonneg (rnd.headD 0)])] at hy
      split at hy
      · simp at hy
      · next c hc =>
        obtain ⟨y2, hy2, rfl⟩ := Option.map_eq_some'.1 hy
        rw [hasHoles_mkApps]
        rw [chooseCandidate_leaf_holeFree g (rnd.tail.headD 0) ctx env (.tcon nm as)
          hleaves c hc]
        simp only [Bool.false_or, List.any_eq_false]
        intro p hp
        have := sampleArgs_no_holes g rnd.tail.tail depth c.ctx env c.argTys
          hleaves y2 hy2 p hp
        simp [this]
termination_by (depth, 1, sizeOf request)

/-- With `sampleHoleProb = 0` every sampled argument is hole-free. -/
theorem sampleArgs_no_holes (g : Grammar) (rnd : List ℚ) (depth : Nat)
    (ctx : Context) (env : List Ty) (argTys : List Ty) (hleaves : g.holeFreeLeaves) :
    ∀ y, sampleArgs g rnd depth ctx env argTys 0 = some y →
      ∀ p ∈ y.1, p.hasHoles = false := by
  intro y hy p hp
  cases argTys with
  | nil =>
    simp only [sampleArgs, Option.some.injEq] at hy
    subst hy
    simp at hp
  | cons t ts =>
    simp only [sampleArgs] at hy
    split at hy
    · simp at hy
    · next p1 c1 rnd1 hp1 =>
      split at hy
      · simp at hy
      · next y2 hy2 =>
        obtain rfl : (p1 :: y2.1, y2.2.1, y2.2.2) = y := by simpa using hy
        rcases List.mem_cons.1 hp with rfl | hp
        · exact sampleFull_no_holes g rnd depth ctx env (ctx.applyCtx t) hleaves
            (p, c1, rnd1) hp1
        · exact sampleArgs_no_holes g rnd1 depth c1 env ts hleaves y2 hy2 p hp
termination_by (depth, 2, argTys.length)

end

/-- Claim C4: for every grammar with hole-free production leaves and
every request, a program returned by `Grammar.sample` with
`sampleHoleProb = 0` contains no `Hole` node. -/
theorem sample_no_holes (g : Grammar) (rnd : List ℚ) (request : Ty)
    (maximumDepth maxAttempts : Nat) (hleaves : g.holeFreeLeaves) :
    ∀ p, g.sample rnd request maximumDepth maxAttempts 0 = some p →
      p.hasHoles = false := by
  induction maxAttempts generalizing rnd with
  | zero => intro p hp; simp [Grammar.sample] at hp
  | succ attempts ih =>
    intro p hp
    simp only [Grammar.sample] at hp
    split at hp
    · next y hy =>
      obtain rfl : y.1 = p := by simpa using hp
      exact sampleFull_no_holes g rnd maximumDepth Context.EMPTY [] request
        hleaves y hy
    · exact ih rnd.tail p hp

/-- Concrete evaluation: sampling from `gW` at request `int` with an
exhausted random stream returns the constant `c`. -/
theorem sample_eval :
    gW.sample [] tint 1 1 0 = some (Program.prim ("c")) := by
  simp [Grammar.sample, sampleFull, sampleArgs, gW, pickIndex, chooseCandidate,
    Grammar.buildCandidates, Context.instantiate, Context.unify, unifyFuel,
    unifyListFuel, Context.applyCtx, applySub, applySubList, occursIn,
    occursInList, collectVars, collectVarsList, tyWeight, tyWeightList,
    Context.EMPTY, tint, peelArrows, mkApps, Context.bindVar]

/-- Witness for C4: the concretely sampled program really has no
holes. -/
theorem sample_no_holes_witness :
    (Program.prim ("c")).hasHoles = false :=
  sample_no_holes gW [] tint 1 1 (by decide) (Program.prim ("c")) sample_eval

/-! ### Claim C5: `sampleSingleStep`. -/

/-- Modelled from the spec: the missing `Grammar._sampleOneStep` — a
one-level expansion: arrow requests wrap abstractions, then one drawn
candidate is applied to fresh holes typed at its argument types under
the current environment (the same per-site candidate distribution as
`sample`). -/
def sampleOneStep (g : Grammar) (rnd : List ℚ) (ctx : Context) (env : List Ty) :
    Ty → Option (Program × Context × List ℚ)
  | .arrow a r =>
    (sampleOneStep g rnd ctx (a :: env) r).map
      (fun y => (Program.abs y.1, y.2.1, y.2.2))
  | req =>
    match chooseCandidate g (rnd.headD 0) ctx env req with
    | none => none
    | some c =>
      some (mkApps c.leaf (c.argTys.map (fun t => Program.hole (c.ctx.applyCtx t) env)),
        c.ctx, rnd.tail)

/-- Modelled from the spec: the missing `sampleSingleStep(grammar,
program, requestType, holeZippers)` — with an empty zipper list the
program is returned unchanged with an empty list; otherwise the first
zipper is selected, one filling is sampled for its hole, `replace`
substitutes it, and the zipper list is recomputed by `findHoles` on
the new program. -/
def sampleSingleStep (g : Grammar) (rnd : List ℚ) (p : Program) (request : Ty)
    (holeZippers : List Zipper) : Option (Program × List Zipper) :=
  match holeZippers with
  | [] => some (p, [])
  | z :: _ =>
    match sampleOneStep g rnd Context.EMPTY z.env z.tp with
    | none => none
    | some y =>
      match replace p z.path y.1 with
      | .ok p2 => some (p2, findHoles p2 request)
      | .error _ => none

/-- Claim C5: `sampleSingleStep` with an empty `holeZippers` list
returns the program unchanged with an empty list; otherwise it selects
the first zipper, samples one filling for that hole, applies
`replace`, and returns the new program together with the zipper list
recomputed by `findHoles` on the new program. -/
theorem sampleSingleStep_spec (g : Grammar) (rnd : List ℚ) (p : Program)
    (request : Ty) :
    (sampleSingleStep g rnd p request [] = some (p, [])) ∧
    (∀ z rest p2 zs2,
      sampleSingleStep g rnd p request (z :: rest) = some (p2, zs2) →
      ∃ filling ctx2 rnd2,
        sampleOneStep g rnd Context.EMPTY z.env z.tp = some (filling, ctx2, rnd2) ∧
        replace p z.path filling = .ok p2 ∧
        zs2 = findHoles p2 request) := by
  constructor
  · rfl
  · intro z rest p2 zs2 h
    simp only [sampleSingleStep] at h
    split at h
    · simp at h
    · next y hy =>
      split at h
      · next q2 hq2 =>
        obtain ⟨rfl, rfl⟩ : q2 = p2 ∧ findHoles q2 request = zs2 := by
          simpa using h
        exact ⟨y.1, y.2.1, y.2.2, hy, hq2, rfl⟩
      · simp at h

/-- Concrete evaluation: one sampling step on the trivial `int` sketch
fills its only hole with the constant `c` and leaves no holes. -/
theorem sampleSingleStep_eval :
    sampleSingleStep gW [] (baseHoleOfType tint) tint
      [⟨[], tint, []⟩] = some (Program.prim ("c"), []) := by
  simp [sampleSingleStep, sampleOneStep, chooseCandidate, pickIndex, gW,
    Grammar.buildCandidates, Context.instantiate, Context.unify, unifyFuel,
    unifyListFuel, Context.applyCtx, applySub, applySubList, occursIn,
    occursInList, collectVars, collectVarsList, tyWeight, tyWeightList,
    Context.EMPTY, tint, peelArrows, mkApps, Context.bindVar, replace,
    findHoles, baseHoleOfType]

/-- Witness for C5: both clauses at concrete inputs — the empty list
leaves the trivial hole sketch unchanged, and on its one-zipper list
one step replaces the hole with a sampled filling and recomputes the
(now empty) zipper list. -/
theorem sampleSingleStep_spec_witness :
    (sampleSingleStep gW [] (baseHoleOfType tint) tint [] =
      some (baseHoleOfType tint, [])) ∧
    ∃ filling ctx2 rnd2,
      sampleOneStep gW [] Context.EMPTY [] tint = some (filling, ctx2, rnd2) ∧
      replace (baseHoleOfType tint) [] filling = .ok (Program.prim ("c")) ∧
      ([] : List Zipper) = findHoles (Program.prim ("c")) tint := by
  constructor
  · exact (sampleSingleStep_spec gW [] (baseHoleOfType tint) tint).1
  · exact (sampleSingleStep_spec gW [] (baseHoleOfType tint) tint).2
      ⟨[], tint, []⟩ [] (Program.prim ("c")) [] sampleSingleStep_eval

/-! ### Agreement of enumeration costs with `logLikelihood` on
monomorphic grammars. -/

mutual

/-- A type without type variables (a ground/monomorphic type). -/
def tvarFree : Ty → Bool
  | .tvar _ => false
  | .arrow a b => tvarFree a && tvarFree b
  | .tcon _ args => tvarFreeList args
termination_by t => sizeOf t

/-- `tvarFree` over a list of types. -/
def tvarFreeList : List Ty → Bool
  | [] => true
  | t :: ts => tvarFree t && tvarFreeList ts
termination_by ts => sizeOf ts

end

mutual

/-- Substitution fixes ground types. -/
theorem applySub_tvarFree (s : List (Nat × Ty)) :
    ∀ t : Ty, tvarFree t = true → applySub s t = t
  | .tvar v => by simp [tvarFree]
  | .arrow a b => by
    intro h
    simp only [tvarFree, Bool.and_eq_true] at h
    simp [applySub, applySub_tvarFree s a h.1, applySub_tvarFree s b h.2]
  | .tcon nm args => by
    intro h
    simp only [tvarFree] at h
    simp [applySub, applySubList_tvarFree s args h]
termination_by t => sizeOf t

/-- Substitution fixes lists of ground types. -/
theorem applySubList_tvarFree (s : List (Nat × Ty)) :
    ∀ ts : List Ty, tvarFreeList ts = true → applySubList s ts = ts
  | [] => by simp [applySubList]
  | t :: ts => by
    intro h
    simp only [tvarFreeList, Bool.and_eq_true] at h
    simp [applySubList, applySub_tvarFree s t h.1, applySubList_tvarFree s ts h.2]
termination_by ts => sizeOf ts

end

mutual

/-- Ground types contain no variables to collect. -/
theorem collectVars_tvarFree :
    ∀ t : Ty, tvarFree t = true → collectVars t = []
  | .tvar v => by simp [tvarFree]
  | .arrow a b => by
    intro h
    simp only [tvarFree, Bool.and_eq_true] at h
    simp [collectVars, collectVars_tvarFree a h.1, collectVars_tvarFree b h.2]
  | .tcon nm args => by
    intro h
    simp only [tvarFree] at h
    simp [collectVars, collectVarsList_tvarFree args h]
termination_by t => sizeOf t

/-- Lists of ground types contain no variables to collect. -/
theorem collectVarsList_tvarFree :
    ∀ ts : List Ty, tvarFreeList ts = true → collectVarsList ts = []
  | [] => by simp [collectVarsList]
  | t :: ts => by
    intro h
    simp only [tvarFreeList, Bool.and_eq_true] at h
    simp [collectVarsList, collectVars_tvarFree t h.1, collectVarsList_tvarFree ts h.2]
termination_by ts => sizeOf ts

end

/-- Instantiating a ground scheme is the identity: no variables to
refresh, no fresh variables allocated. -/
theorem instantiate_tvarFree (ctx : Context) (t : Ty) (h : tvarFree t = true) :
    ctx.instantiate t = (ctx, t) := by
  unfold Context.instantiate
  rw [collectVars_tvarFree t h]
  simp [applySub_tvarFree _ t h]

/-- Peeled argument types and return type of a ground type are
ground. -/
theorem peelArrows_tvarFree : ∀ t : Ty, tvarFree t = true →
    tvarFree (peelArrows t).2 = true ∧ ∀ a ∈ (peelArrows t).1, tvarFree a = true
  | .tvar v => by simp [tvarFree]
  | .arrow a b => by
    intro h
    simp only [tvarFree, Bool.and_eq_true] at h
    have ihb := peelArrows_tvarFree b h.2
    refine ⟨by simpa [peelArrows] using ihb.1, ?_⟩
    intro x hx
    simp only [peelArrows] at hx
    rcases List.mem_cons.1 hx with rfl | hx
    · exact h.1
    · exact ihb.2 x hx
  | .tcon nm args => by
    intro h
    exact ⟨by simpa [peelArrows] using h, by simp [peelArrows]⟩
termination_by t => sizeOf t

mutual

/-- Unifying ground types never extends the context. -/
theorem unifyFuel_ground : ∀ (fuel : Nat) (ctx : Context) (t u : Ty) (c : Context),
    tvarFree t = true → tvarFree u = true →
    unifyFuel fuel ctx t u = some c → c = ctx := by
  intro fuel ctx t u c ht hu h
  match fuel with
  | 0 => simp [unifyFuel] at h
  | fuel + 1 =>
    simp only [unifyFuel, Context.applyCtx] at h
    rw [applySub_tvarFree _ t ht, applySub_tvarFree _ u hu] at h
    match t, u with
    | .tvar v, _ => simp [tvarFree] at ht
    | .arrow a b, .tvar v => simp [tvarFree] at hu
    | .tcon nm args, .tvar v => simp [tvarFree] at hu
    | .arrow a b, .arrow a2 b2 =>
      simp only [tvarFree, Bool.and_eq_true] at ht hu
      dsimp only at h
      match h1 : unifyFuel fuel ctx a a2 with
      | none =>
        rw [h1] at h
        exact Option.noConfusion h
      | some c1 =>
        rw [h1] at h
        have hc1 := unifyFuel_ground fuel ctx a a2 c1 ht.1 hu.1 h1
        subst hc1
        exact unifyFuel_ground fuel c1 b b2 c ht.2 hu.2 h
    | .arrow a b, .tcon nm args =>
      dsimp only at h
      exact Option.noConfusion h
    | .tcon nm args, .arrow a2 b2 =>
      dsimp only at h
      exact Option.noConfusion h
    | .tcon nm args, .tcon nm2 args2 =>
      simp only [tvarFree] at ht hu
      dsimp only at h
      split at h
      · exact unifyListFuel_ground fuel ctx args args2 c ht hu h
      · simp at h
termination_by fuel _ _ _ _ => (fuel, 0, 0)

/-- Unifying lists of ground types never extends the context. -/
theorem unifyListFuel_ground : ∀ (fuel : Nat) (ctx : Context) (ts us : List Ty)
    (c : Context), tvarFreeList ts = true → tvarFreeList us = true →
    unifyListFuel fuel ctx ts us = some c → c = ctx := by
  intro fuel ctx ts us c ht hu h
  match ts, us with
  | [], [] => simpa [unifyListFuel] using h.symm
  | t :: ts, u :: us =>
    simp only [tvarFreeList, Bool.and_eq_true] at ht hu
    simp only [unifyListFuel] at h
    match h1 : unifyFuel fuel ctx t u with
    | none =>
      rw [h1] at h
      exact Option.noConfusion h
    | some c1 =>
      rw [h1] at h
      have hc1 := unifyFuel_ground fuel ctx t u c1 ht.1 hu.1 h1
      subst hc1
      exact unifyListFuel_ground fuel c1 ts us c ht.2 hu.2 h
  | [], _ :: _ => simp [unifyListFuel] at h
  | _ :: _, [] => simp [unifyListFuel] at h
termination_by fuel _ ts _ _ => (fuel, 1, ts.length)

end

/-- `Context.unify` on ground types never extends the context. -/
theorem unify_ground (ctx : Context) (t u : Ty) (c : Context)
    (ht : tvarFree t = true) (hu : tvarFree u = true)
    (h : ctx.unify t u = some c) : c = ctx :=
  unifyFuel_ground _ ctx t u c ht hu h

/-- The name of a primitive (or invented) leaf. -/
def leafName : Program → Option String
  | .prim nm => some nm
  | _ => none

/-- A monomorphic grammar: every production type is ground, every
production leaf is a named primitive, and names are unique (the
uniqueness the spec requires of callers). -/
def Grammar.monomorphic (g : Grammar) : Prop :=
  (∀ p ∈ g.productions, tvarFree p.2.1 = true ∧ (leafName p.2.2).isSome = true) ∧
  (g.productions.map (fun p => leafName p.2.2)).Nodup

instance (g : Grammar) : Decidable g.monomorphic := by
  unfold Grammar.monomorphic; infer_instance

/-- With unique primitive names, looking a production's name up finds
exactly that production. -/
theorem find_by_name (nm : String) :
    ∀ (l : List (ℚ × Ty × Program)),
      (l.map (fun p => leafName p.2.2)).Nodup →
      ∀ prod ∈ l, prod.2.2 = Program.prim nm →
      l.find? (fun q =>
        match q.2.2 with
        | .prim nm2 => nm2 == nm
        | _ => false) = some prod := by
  intro l
  induction l with
  | nil => intro _ prod hp; simp at hp
  | cons q qs ih =>
    intro hnodup prod hp hnm
    rcases List.mem_cons.1 hp with rfl | hp
    · exact List.find?_cons_of_pos _ (by simp [hnm])
    · have hqname : ∀ nm2, q.2.2 = Program.prim nm2 → nm2 ≠ nm := by
        intro nm2 hq2 hcontra
        subst hcontra
        have : leafName prod.2.2 ∈ qs.map (fun p => leafName p.2.2) :=
          List.mem_map.2 ⟨prod, hp, rfl⟩
        rw [List.map_cons, List.nodup_cons] at hnodup
        apply hnodup.1
        rw [hnm] at this
        rw [hq2]
        simpa [leafName, hnm] using this
      rw [List.find?_cons_of_neg _ (by
        match hq : q.2.2 with
        | .prim nm2 => simpa using hqname nm2 hq
        | .index i => simp
        | .abs b => simp
        | .app f x => simp
        | .hole t e => simp)]
      have hnodup2 : (qs.map (fun p => leafName p.2.2)).Nodup := by
        rw [List.map_cons, List.nodup_cons] at hnodup
        exact hnodup.2
      exact ih hnodup2 prod hp hnm

/-- Over a monomorphic grammar with ground environment and request,
every candidate keeps the context unchanged, has ground argument
types, and is reproduced exactly by `leafLookup` at its own leaf. -/
theorem candidate_leafLookup (g : Grammar) (ctx : Context) (env : List Ty)
    (request : Ty) (hm : g.monomorphic)
    (henv : ∀ t ∈ env, tvarFree t = true) (hreq : tvarFree request = true) :
    ∀ c ∈ g.buildCandidates ctx env request,
      c.ctx = ctx ∧ (∀ t ∈ c.argTys, tvarFree t = true) ∧
      leafLookup g ctx env c.leaf request c.argTys.length =
        some (c.w, c.argTys, c.ctx) := by
  intro c hc
  rcases List.mem_append.1 hc with h | h
  · obtain ⟨prod, hmem, heq⟩ := List.mem_filterMap.1 h
    obtain ⟨hg, hleaf⟩ := hm.1 prod hmem
    obtain ⟨nm, hnm⟩ : ∃ nm, prod.2.2 = Program.prim nm := by
      match hq : prod.2.2 with
      | .prim nm2 => exact ⟨nm2, rfl⟩
      | .index i => rw [hq] at hleaf; simp [leafName] at hleaf
      | .abs b => rw [hq] at hleaf; simp [leafName] at hleaf
      | .app f x => rw [hq] at hleaf; simp [leafName] at hleaf
      | .hole t e => rw [hq] at hleaf; simp [leafName] at hleaf
    rw [instantiate_tvarFree ctx prod.2.1 hg] at heq
    obtain ⟨ctx2, hunif, heq2⟩ := Option.map_eq_some'.1 heq
    cases heq2
    have hpa := peelArrows_tvarFree prod.2.1 hg
    have hctx2 : ctx2 = ctx :=
      unify_ground ctx (peelArrows prod.2.1).2 request ctx2 hpa.1 hreq hunif
    refine ⟨hctx2, hpa.2, ?_⟩
    rw [hnm]
    simp only [leafLookup, lookupProd]
    rw [find_by_name nm g.productions hm.2 prod hmem hnm]
    dsimp only
    rw [instantiate_tvarFree ctx prod.2.1 hg]
    dsimp only
    rw [if_pos rfl]
    rw [hunif]
    rfl
  · obtain ⟨p, hmem, heq⟩ := List.mem_filterMap.1 h
    obtain ⟨ctx2, hunif, heq2⟩ := Option.map_eq_some'.1 heq
    cases heq2
    have hti : p.2 ∈ env := by
      have := List.mem_enum_iff_getElem?.1 hmem
      exact List.mem_iff_getElem?.2 ⟨p.1, this⟩
    have hg : tvarFree p.2 = true := henv p.2 hti
    have hpa := peelArrows_tvarFree p.2 hg
    have hctx2 : ctx2 = ctx :=
      unify_ground ctx (peelArrows p.2).2 request ctx2 hpa.1 hreq hunif
    refine ⟨hctx2, hpa.2, ?_⟩
    simp only [leafLookup]
    rw [show env[p.1]? = some p.2 from List.mem_enum_iff_getElem?.1 hmem]
    dsimp only
    rw [if_pos rfl]
    rw [hunif]
    rfl

/-- Likelihood of a built spine: unwinding `mkApps` shifts the spine
into the pending list. -/
theorem likHelp_mkApps (g : Grammar) (ctx : Context) (env : List Ty)
    (request : Ty) : ∀ (as : List Program) (f : Program) (pending : List Program),
    likHelp g ctx env request (mkApps f as) pending =
      likHelp g ctx env request f (as ++ pending) := by
  intro as
  induction as with
  | nil => intro f pending; simp [mkApps]
  | cons a rest ih =>
    intro f pending
    rw [show mkApps f (a :: rest) = mkApps (.app f a) rest from rfl]
    rw [ih (.app f a) pending]
    simp [likHelp]

mutual

/-- Over a monomorphic grammar, the log-likelihood component yielded
by the enumerator for a complete program is exactly the program's
`likHelp` log-likelihood, and the context is returned unchanged. -/
theorem enumFull_logLikelihood (g : Grammar) (fuel : Nat) (ctx : Context)
    (env : List Ty) (request : Ty) (budget : ℚ) (hm : g.monomorphic)
    (henv : ∀ t ∈ env, tvarFree t = true) (hreq : tvarFree request = true) :
    ∀ x ∈ enumFull g fuel ctx env request budget false,
      likHelp g ctx env request x.2.2 [] = some (x.1, x.2.1) ∧ x.2.1 = ctx := by
  intro x hx
  cases request with
  | arrow a r =>
    simp only [enumFull] at hx
    obtain ⟨y, hy, rfl⟩ := List.mem_map.1 hx
    have hreq2 := hreq
    simp only [tvarFree, Bool.and_eq_true] at hreq2
    have ih := enumFull_logLikelihood g fuel ctx (a :: env) r budget hm
      (by
        intro t ht
        rcases List.mem_cons.1 ht with rfl | ht
        · exact hreq2.1
        · exact henv t ht)
      hreq2.2 y hy
    have happly : ctx.applyCtx (Ty.arrow a r) = Ty.arrow a r :=
      applySub_tvarFree _ _ hreq
    refine ⟨?_, ih.2⟩
    simp only [likHelp, happly]
    exact ih.1
  | tvar v =>
    cases fuel with
    | zero => simp [enumFull] at hx
    | succ fuel =>
      simp only [enumFull, Bool.false_and, Bool.false_eq_true, if_false,
        List.nil_append] at hx
      obtain ⟨c, hc, hx2⟩ := List.mem_flatMap.1 hx
      by_cases hcw : 0 < budget + c.w
      · rw [if_pos hcw] at hx2
        obtain ⟨r2, hr2, rfl⟩ := List.mem_map.1 hx2
        obtain ⟨hcctx, hcargs, hlk⟩ :=
          candidate_leafLookup g ctx env (.tvar v) hm henv hreq c hc
        rw [hcctx] at hr2
        have ih2 := enumArgs_logLikelihood g fuel ctx env c.argTys (budget + c.w)
          hm henv hcargs r2 hr2
        refine ⟨?_, ih2.2.1⟩
        rw [likHelp_mkApps, List.append_nil]
        match hleaf : c.leaf with
        | .prim nm =>
          rw [hleaf] at hlk
          simp only [likHelp]
          rw [ih2.2.2, hlk]
          dsimp only
          rw [hcctx, ih2.1]
        | .index i =>
          rw [hleaf] at hlk
          simp only [likHelp]
          rw [ih2.2.2, hlk]
          dsimp only
          rw [hcctx, ih2.1]
        | .abs b => rw [hleaf] at hlk; simp [leafLookup] at hlk
        | .app f2 x2 => rw [hleaf] at hlk; simp [leafLookup] at hlk
        | .hole t e => rw [hleaf] at hlk; simp [leafLookup] at hlk
      · rw [if_neg hcw] at hx2
        simp at hx2
  | tcon nm as =>
    cases fuel with
    | zero => simp [enumFull] at hx
    | succ fuel =>
      simp only [enumFull, Bool.false_and, Bool.false_eq_true, if_false,
        List.nil_append] at hx
      obtain ⟨c, hc, hx2⟩ := List.mem_flatMap.1 hx
      by_cases hcw : 0 < budget + c.w
      · rw [if_pos hcw] at hx2
        obtain ⟨r2, hr2, rfl⟩ := List.mem_map.1 hx2
        obtain ⟨hcctx, hcargs, hlk⟩ :=
          candidate_leafLookup g ctx env (.tcon nm as) hm henv hreq c hc
        rw [hcctx] at hr2
        have ih2 := enumArgs_logLikelihood g fuel ctx env c.argTys (budget + c.w)
          hm henv hcargs r2 hr2
        refine ⟨?_, ih2.2.1⟩
        rw [likHelp_mkApps, List.append_nil]
        match hleaf : c.leaf with
        | .prim nm2 =>
          rw [hleaf] at hlk
          simp only [likHelp]
          rw [ih2.2.2, hlk]
          dsimp only
          rw [hcctx, ih2.1]
        | .index i =>
          rw [hleaf] at hlk
          simp only [likHelp]
          rw [ih2.2.2, hlk]
          dsimp only
          rw [hcctx, ih2.1]
        | .abs b => rw [hleaf] at hlk; simp [leafLookup] at hlk
        | .app f2 x2 => rw [hleaf] at hlk; simp [leafLookup] at hlk
        | .hole t e => rw [hleaf] at hlk; simp [leafLookup] at hlk
      · rw [if_neg hcw] at hx2
        simp at hx2
termination_by (fuel, 1, sizeOf request)

/-- Argument-list version of `enumFull_logLikelihood`. -/
theorem enumArgs_logLikelihood (g : Grammar) (fuel : Nat) (ctx : Context)
    (env : List Ty) (argTys : List Ty) (budget : ℚ) (hm : g.monomorphic)
    (henv : ∀ t ∈ env, tvarFree t = true)
    (hargs : ∀ t ∈ argTys, tvarFree t = true) :
    ∀ x ∈ enumArgs g fuel ctx env argTys budget false,
      likArgs g ctx env argTys x.2.2 = some (x.1, x.2.1) ∧ x.2.1 = ctx ∧
        x.2.2.length = argTys.length := by
  intro x hx
  cases argTys with
  | nil =>
    simp only [enumArgs, List.mem_singleton] at hx
    subst hx
    exact ⟨by simp [likArgs], rfl, rfl⟩
  | cons t ts =>
    simp only [enumArgs] at hx
    obtain ⟨a, ha, hx2⟩ := List.mem_flatMap.1 hx
    obtain ⟨r2, hr2, rfl⟩ := List.mem_map.1 hx2
    have hgt : tvarFree t = true := hargs t (by simp)
    have happly : ctx.applyCtx t = t := applySub_tvarFree _ _ hgt
    have ih1 := enumFull_logLikelihood g fuel ctx env (ctx.applyCtx t) budget hm henv
      (by rw [happly]; exact hgt) a ha
    rw [ih1.2] at hr2
    have ih2 := enumArgs_logLikelihood g fuel ctx env ts (budget + a.1) hm henv
      (fun u hu => hargs u (by simp [hu])) r2 hr2
    refine ⟨?_, ih2.2.1, by simp [ih2.2.2]⟩
    simp only [likArgs]
    rw [ih1.1]
    dsimp only
    rw [ih1.2, ih2.1]
termination_by (fuel, 2, argTys.length)

end

/-- Claim C1: under the spec's assumption that every production has
strictly negative log-weight, every program yielded by
`Grammar.enumeration` for a request with bound `b` has log-likelihood
strictly greater than `-b`, and the sequence of yielded
log-likelihoods is non-increasing.  Moreover over a monomorphic
grammar with ground environment and request, the yielded
log-likelihood component of each complete program is exactly
`Grammar.logLikelihood` of that program for the same request. -/
theorem enumeration_ll_bound_and_sorted (g : Grammar) (ctx : Context) (env : List Ty)
    (request : Ty) (b : ℚ) (eh : Bool) (hg : g.negWeights) :
    (∀ x ∈ g.enumeration ctx env request b eh, -b < x.1) ∧
    ((g.enumeration ctx env request b eh).map (fun x => x.1)).Sorted
      (fun l1 l2 => l2 ≤ l1) ∧
    (g.monomorphic → (∀ t ∈ env, tvarFree t = true) → tvarFree request = true →
      eh = false →
      ∀ x ∈ g.enumeration ctx env request b eh,
        g.logLikelihood ctx env request x.2.2 = some (x.1, x.2.1)) := by
  refine ⟨?_, ?_, ?_⟩
  · intro x hx
    have hx2 : x ∈ enumFull g (g.enumFuel b) ctx env request b eh :=
      (List.Perm.mem_iff (List.perm_insertionSort llOrd _)).1 hx
    exact (enumFull_ll_bound g (g.enumFuel b) ctx env request b eh hg x hx2).1
  · have h := List.sorted_insertionSort llOrd
      (enumFull g (g.enumFuel b) ctx env request b eh)
    rw [List.Sorted, List.pairwise_map]
    exact h
  · intro hm henv hreq heh x hx
    subst heh
    have hx2 : x ∈ enumFull g (g.enumFuel b) ctx env request b false :=
      (List.Perm.mem_iff (List.perm_insertionSort llOrd _)).1 hx
    exact (enumFull_logLikelihood g (g.enumFuel b) ctx env request b hm henv hreq
      x hx2).1


/-- The full bounded enumeration of `gW` at request `int`, bound 3. -/
theorem enumerationW_eval :
    gW.enumeration Context.EMPTY [] tint 3 false =
      [((-1 : ℚ), Context.EMPTY, Program.prim ("c")),
       ((-2 : ℚ), Context.EMPTY,
         Program.app (Program.prim ("f")) (Program.prim ("c")))] := by
  simp [Grammar.enumeration, enumFull, enumArgs, Grammar.enumFuel,
    Grammar.maxWeight, gW, Grammar.buildCandidates, Context.instantiate,
    Context.unify, unifyFuel, unifyListFuel, Context.applyCtx, applySub,
    applySubList, occursIn, occursInList, collectVars, collectVarsList,
    tyWeight, tyWeightList, Context.EMPTY, tint, peelArrows, mkApps,
    List.insertionSort, List.orderedInsert, llOrd, Context.bindVar]
  norm_num [mkApps, List.insertionSort, List.orderedInsert, llOrd]

/-- Witness for C1 at the concrete grammar `gW`, request `int`,
bound 3: the bound, the ordering, and the agreement of the first
yielded log-likelihood with `logLikelihood`. -/
theorem enumeration_ll_bound_and_sorted_witness :
    gW.negWeights ∧
    (∀ x ∈ gW.enumeration Context.EMPTY [] tint 3 false, -3 < x.1) ∧
    ((gW.enumeration Context.EMPTY [] tint 3 false).map (fun x => x.1)).Sorted
      (fun l1 l2 => l2 ≤ l1) ∧
    gW.logLikelihood Context.EMPTY [] tint (Program.prim ("c")) =
      some (-1, Context.EMPTY) := by
  have h := enumeration_ll_bound_and_sorted gW Context.EMPTY [] tint 3 false (by decide)
  refine ⟨by decide, h.1, h.2.1, ?_⟩
  exact h.2.2
    (by
      constructor
      · intro p hp
        fin_cases hp <;>
          simp [tvarFree, tvarFreeList, tint, leafName, gW]
      · simp [gW, leafName])
    (by simp)
    (by simp [tvarFree, tvarFreeList, tint])
    rfl
    ((-1 : ℚ), Context.EMPTY, Program.prim ("c"))
    (by rw [enumerationW_eval]; simp)


end EC
